import Mathlib

/-!
Formal model of the isoline isometric tile renderer.

This file embeds, as executable Lean definitions, the core of the isoline
repository: the mdmap parser's header handling and dimension validation
(src/isoline/map_parser.py), the per-tile GPU vertex-list bookkeeping
(src/isoline/tile_renderer.py, class VectorTile), the renderer state machine
(src/isoline/renderer.py, class IsometricRenderer: offset management,
dirty tracking, visibility culling, full rebuild and incremental update,
animation clock, cleanup), and the grass tile's procedural geometry
generation with its per-state memo cache (src/isoline/tile_renderer.py,
class GrassTile).

Modelling conventions:
- Python dicts are association lists with first-match lookup; insertion
  order is preserved, matching Python dict semantics.
- GPU vertex lists are modelled by a handle ledger: each DirectVertexList
  allocation draws a fresh natural-number handle, `vlist.delete()` removes
  the handle from the live list.  A tile's `_active_vertex_lists` maps a
  screen position to the handle living there.
- Python floats used by the animation clock are modelled as rationals;
  the float functions math.sin / math.pi of the grass geometry are modelled
  by fixed computable rational stand-ins (only their determinism matters
  for the properties below).
- The regular-expression scanning of a map file's text is modelled as an
  already-extracted `RawMap` value (the optional header captures, the
  legend sections and the layer grid sections exactly as `re` would return
  them); everything `parse_mdmap` does with those captures (header check,
  layer construction, grid assignment, dimension validation) is translated
  from src/isoline/map_parser.py.
-/

namespace Isoline

set_option linter.unusedSectionVars false

/-- Registry key: `(layer_name, grid_x, grid_y)`, as used by
`IsometricRenderer.current_positions` and `dirty_tiles`. -/
abbrev Key := String × Nat × Nat

section AssocList

variable {α β : Type} [DecidableEq α]

/-- First-match lookup in an association list (Python `d.get(a)` / `d[a]`). -/
def alook : List (α × β) → α → Option β
  | [], _ => none
  | p :: t, a => if p.1 = a then some p.2 else alook t a

/-- Update-or-append (Python `d[a] = b`): replaces the first binding of `a`,
appends a new binding at the end when `a` is absent (dict insertion order). -/
def aset : List (α × β) → α → β → List (α × β)
  | [], a, b => [(a, b)]
  | p :: t, a, b => if p.1 = a then (a, b) :: t else p :: aset t a b

/-- Remove the first binding of `a` (Python `del d[a]` on a key known present;
identity when the key is absent). -/
def aerase : List (α × β) → α → List (α × β)
  | [], _ => []
  | p :: t, a => if p.1 = a then t else p :: aerase t a

/-- Keys of an association list, in order. -/
def akeys (l : List (α × β)) : List α := l.map Prod.fst

/-- Update the value bound to `a` in place (Python mutation of `d[a]`). -/
def aupdate (l : List (α × β)) (a : α) (f : β → β) : List (α × β) :=
  l.map (fun p => if p.1 = a then (p.1, f p.2) else p)

end AssocList

/-- Insertion into a Python `set` / ordered deduplicating insert. -/
def dinsert {κ : Type} [DecidableEq κ] (l : List κ) (k : κ) : List κ :=
  if k ∈ l then l else l ++ [k]

/-! ### Map document model (src/isoline/map_parser.py) -/

/-- Header of an mdmap file: `MDMapHeader(name, width, height, layers)`. -/
structure MDMapHeader where
  name : String
  width : Nat
  height : Nat
  layers : List String
  deriving DecidableEq

/-- Per-layer data: the character grid and the legend mapping. -/
structure LayerData where
  grid : List (List Char)
  legend : List (String × String)
  deriving DecidableEq

/-- Parsed map: optional header plus the named layers (insertion-ordered). -/
structure MDMap where
  header : Option MDMapHeader
  layers : List (String × LayerData)
  deriving DecidableEq

/-- `MDMap.get_layer`. -/
def get_layer (m : MDMap) (name : String) : Option LayerData := alook m.layers name

/-- Raw capture results of the regular expressions `parse_mdmap` runs over the
file text: the `# Level:` name, the `Size: WxH` pair, the `Layers:` name list,
the `[legend: name]` sections and the `[layer: name]` grid sections.  A capture
is `none` when the corresponding regex did not match. -/
structure RawMap where
  name_field : Option String
  size_field : Option (Nat × Nat)
  layers_field : Option (List String)
  legend_sections : List (String × List (String × String))
  layer_sections : List (String × List (List Char))
  deriving DecidableEq

/-- Dimension validation loop of `parse_mdmap` (map_parser.py lines 121-135):
a layer with a nonempty grid must have exactly `height` rows of exactly
`width` characters; a layer whose grid stayed empty is skipped by the
`if layer.grid:` guard. -/
def validate_dims (hd : MDMapHeader) : List (String × LayerData) → Except String Unit
  | [] => .ok ()
  | (_, ld) :: t =>
    if ld.grid ≠ [] then
      if ld.grid.length ≠ hd.height then .error "layer height does not match header height"
      else if ld.grid.any (fun row => row.length ≠ hd.width) then
        .error "layer row width does not match header width"
      else validate_dims hd t
    else validate_dims hd t

/-- `parse_mdmap` (map_parser.py lines 71-135), over pre-extracted captures:
fails when any header capture is missing; builds the layer table from the
header's layer names; folds legend sections and layer grid sections into the
declared layers (sections naming undeclared layers are ignored); finally runs
the dimension validation and raises (returns `.error`) on its failure. -/
def parse_mdmap (raw : RawMap) : Except String MDMap :=
  match raw.name_field, raw.size_field, raw.layers_field with
  | some name, some sz, some layerNames =>
    let hd : MDMapHeader := ⟨name, sz.1, sz.2, layerNames⟩
    let m0 : List (String × LayerData) :=
      layerNames.foldl (fun acc ln => aset acc ln ⟨[], []⟩) []
    let m1 :=
      raw.legend_sections.foldl
        (fun acc sec =>
          if (alook acc sec.1).isSome then
            aupdate acc sec.1
              (fun ld => { ld with legend := sec.2.foldl (fun lg kv => aset lg kv.1 kv.2) ld.legend })
          else acc)
        m0
    let m2 :=
      raw.layer_sections.foldl
        (fun acc sec =>
          if (alook acc sec.1).isSome then aupdate acc sec.1 (fun ld => { ld with grid := sec.2 })
          else acc)
        m1
    match validate_dims hd m2 with
    | .ok _ => .ok ⟨some hd, m2⟩
    | .error e => .error e
  | _, _, _ => .error "Invalid MDMap header format"

/-! ### Tile bookkeeping model (src/isoline/tile_renderer.py, class VectorTile)

`TileR` is the resource-bookkeeping view of a `VectorTile` instance: its
animation state (`states = range num_states`, so a state value equals its
index) and its per-screen-position vertex-list table.  Handles are drawn
from the renderer's allocation counter and recorded in the live-handle
ledger. -/

structure TileR where
  animated : Bool
  num_states : Nat
  current_state_index : Nat
  active : List ((Int × Int) × Nat)
  state_by_position : List ((Int × Int) × Nat)
  deriving DecidableEq

/-- `VectorTile.get_current_state`: `self.states[self.current_state_index]`
with `states = list(range(num_states))`, and `0` when `states` is empty. -/
def get_current_state (t : TileR) : Nat :=
  (List.range t.num_states).getD t.current_state_index 0

/-- `VectorTile.delete_vbo_at_position`: release the vertex list stored at
`pos` (if any) and drop both the active entry and the state record. -/
def delete_vbo_at_position (t : TileR) (pos : Int × Int) (live : List Nat) :
    TileR × List Nat :=
  match alook t.active pos with
  | some h =>
    ({ t with active := aerase t.active pos, state_by_position := aerase t.state_by_position pos },
      live.erase h)
  | none => ({ t with state_by_position := aerase t.state_by_position pos }, live)

/-- `VectorTile.add_to_batch`: early return when a vertex list for the current
state already sits at this position; otherwise release any stale vertex list
at the position, then allocate a fresh one (the tile's vertex data is never
empty: the diamond outline always contributes 16 coordinates, so the
`if not vertices: return` branch of the source is unreachable). -/
def add_to_batch (t : TileR) (x y : Int) (nxt : Nat) (live : List Nat) :
    TileR × Nat × List Nat :=
  let pos : Int × Int := (x, y)
  let cs := get_current_state t
  if (alook t.active pos).isSome ∧ alook t.state_by_position pos = some cs then
    (t, nxt, live)
  else
    let r := if (alook t.active pos).isSome then delete_vbo_at_position t pos live else (t, live)
    ({ r.1 with
        active := aset r.1.active pos nxt
        state_by_position := aset r.1.state_by_position pos cs },
      nxt + 1, nxt :: r.2)

/-- `VectorTile.advance_state`: cycle the state index, a no-op for
non-animated tiles (`if not self.animated or not self.states: return`). -/
def advance_state (t : TileR) : TileR :=
  if t.animated = false ∨ t.num_states = 0 then t
  else { t with current_state_index := (t.current_state_index + 1) % t.num_states }

/-- `create_tile` (tile_renderer.py lines 490-497): only grass is known;
`GrassTile(width, height, num_states=5)` ends up with `states = range(5)`,
`animated = True`, `current_state_index = 0`.  Every other code raises
`ValueError`. -/
def create_tile (c : Char) : Except String TileR :=
  if c = 'G' ∨ c = 'g' then
    .ok { animated := true
          num_states := 5
          current_state_index := 0
          active := []
          state_by_position := [] }
  else .error "Unknown tile type"

/-! ### Renderer state (src/isoline/renderer.py, class IsometricRenderer) -/

structure RState where
  tile_width : Nat
  tile_height : Nat
  map_data : Option MDMap
  tile_cache : List (Char × TileR)
  x_offset : Int
  y_offset : Int
  current_positions : List (Key × (Char × Int × Int))
  viewport_width : Nat
  viewport_height : Nat
  needs_rebuild : Bool
  dirty_tiles : List Key
  animation_enabled : Bool
  animation_frame_time : ℚ
  animation_time_elapsed : ℚ
  next_handle : Nat
  live_handles : List Nat
  deriving DecidableEq

/-- `IsometricRenderer.__init__(tile_width=100, tile_height=50)`. -/
def mk_renderer (w : Nat := 100) (h : Nat := 50) : RState :=
  { tile_width := w
    tile_height := h
    map_data := none
    tile_cache := []
    x_offset := 0
    y_offset := 0
    current_positions := []
    viewport_width := 800
    viewport_height := 600
    needs_rebuild := false
    dirty_tiles := []
    animation_enabled := true
    animation_frame_time := 1/4
    animation_time_elapsed := 0
    next_handle := 0
    live_handles := [] }

/-- Isometric screen x: `x_offset + (x * tile_width // 2) - (y * tile_width // 2)`,
used verbatim in `_add_layer_to_batch` (renderer.py lines 199-203) and in
`_update_dirty_tiles` (lines 280-281). -/
def screen_x_of (off : Int) (tw : Nat) (gx gy : Nat) : Int :=
  off + ((gx * tw / 2 : Nat) : Int) - ((gy * tw / 2 : Nat) : Int)

/-- Isometric screen y: `y_offset + (x * tile_height // 2) + (y * tile_height // 2)`,
used verbatim in `_add_layer_to_batch` (renderer.py lines 204-208) and in
`_update_dirty_tiles` (lines 283-287). -/
def screen_y_of (off : Int) (th : Nat) (gx gy : Nat) : Int :=
  off + ((gx * th / 2 : Nat) : Int) + ((gy * th / 2 : Nat) : Int)

/-- Culling padding `max(self.tile_width, self.tile_height) * 2`, as computed
at both call sites of `_is_potentially_visible`. -/
def padding_of (s : RState) : Int := ((max s.tile_width s.tile_height : Nat) : Int) * 2

/-- `IsometricRenderer._is_potentially_visible` (renderer.py lines 241-254). -/
def is_potentially_visible (s : RState) (sx sy pad : Int) : Bool :=
  decide (0 ≤ sx + (s.tile_width : Int) + pad) && decide (sx - pad ≤ (s.viewport_width : Int))
    && decide (0 ≤ sy + (s.tile_height : Int) + pad)
    && decide (sy - pad ≤ (s.viewport_height : Int))

/-- Tile code of the grid cell a registry key denotes (out-of-range reads give
the empty code `'.'`, which is never in the tile cache). -/
def code_at (s : RState) (k : Key) : Char :=
  match s.map_data with
  | some m =>
    match get_layer m k.1 with
    | some ld => (ld.grid.getD k.2.2 []).getD k.2.1 '.'
    | none => '.'
  | none => '.'

/-- Whether the layer a key names exists in the loaded map. -/
def layer_exists (s : RState) (L : String) : Bool :=
  match s.map_data with
  | some m => (get_layer m L).isSome
  | none => false

/-- `self.tile_cache[tile_type].add_to_batch(x, y, self.batch)`: look the tile
up, run `add_to_batch` on it, write the mutated tile back. -/
def tc_add_to_batch (cache : List (Char × TileR)) (c : Char) (x y : Int)
    (nxt : Nat) (live : List Nat) : List (Char × TileR) × Nat × List Nat :=
  match alook cache c with
  | none => (cache, nxt, live)
  | some t =>
    let r := add_to_batch t x y nxt live
    (aset cache c r.1, r.2.1, r.2.2)

/-- `old_tile.delete_vbo_at_position(old_screen_pos_key)` with the tile looked
up in the cache and written back. -/
def tc_delete_vbo (cache : List (Char × TileR)) (c : Char) (pos : Int × Int)
    (live : List Nat) : List (Char × TileR) × List Nat :=
  match alook cache c with
  | none => (cache, live)
  | some t =>
    let r := delete_vbo_at_position t pos live
    (aset cache c r.1, r.2)

/-- Loop body of `_add_layer_to_batch` (renderer.py lines 194-239): skip the
cell unless its code has a cached tile; compute the isometric screen position;
if potentially visible, add the tile's vertex list to the batch and record the
registry entry. -/
def process_cell (s : RState) (L : String) (grid : List (List Char)) (x y : Nat) : RState :=
  let code := (grid.getD y []).getD x '.'
  if (alook s.tile_cache code).isSome then
    let sx := screen_x_of s.x_offset s.tile_width x y
    let sy := screen_y_of s.y_offset s.tile_height x y
    if is_potentially_visible s sx sy (padding_of s) then
      let r := tc_add_to_batch s.tile_cache code sx sy s.next_handle s.live_handles
      { s with
        tile_cache := r.1
        next_handle := r.2.1
        live_handles := r.2.2
        current_positions := aset s.current_positions (L, x, y) (code, sx, sy) }
    else s
  else s

/-- `IsometricRenderer._add_layer_to_batch` (renderer.py lines 172-239). -/
def add_layer_to_batch (s : RState) (L : String) : RState :=
  match s.map_data with
  | none => s
  | some m =>
    match get_layer m L, m.header with
    | some layer, some hd =>
      (List.range hd.height).foldl
        (fun acc y =>
          (List.range hd.width).foldl (fun acc2 x => process_cell acc2 L layer.grid x y) acc)
        s
    | _, _ => s

/-- The "VBO Management" block of `_update_dirty_tiles` (renderer.py lines
291-301): if the key has a recorded registry entry, look up the tile of the
recorded old type and release the vertex list at the old screen position. -/
def release_old_vbo (s : RState) (k : Key) : RState :=
  match alook s.current_positions k with
  | some old =>
    if (alook s.tile_cache old.1).isSome then
      let r := tc_delete_vbo s.tile_cache old.1 (old.2.1, old.2.2) s.live_handles
      { s with tile_cache := r.1, live_handles := r.2 }
    else s
  | none => s

/-- Loop body of `_update_dirty_tiles` (renderer.py lines 265-316): skip keys
whose layer is missing or whose grid code has no cached tile; release the
vertex list at the key's previously recorded screen position
(`release_old_vbo`); re-add at the new screen position when visible
(re-fetching the tile from the cache, which matches Python aliasing: the
deletion mutated the same tile object whenever the old and new tile types
coincide), otherwise drop the registry entry. -/
def update_dirty_cell (s : RState) (k : Key) : RState :=
  match s.map_data with
  | none => s
  | some m =>
    match get_layer m k.1 with
    | none => s
    | some layer =>
      let ty := (layer.grid.getD k.2.2 []).getD k.2.1 '.'
      if (alook s.tile_cache ty).isSome then
        let nsx := screen_x_of s.x_offset s.tile_width k.2.1 k.2.2
        let nsy := screen_y_of s.y_offset s.tile_height k.2.1 k.2.2
        let s1 := release_old_vbo s k
        if is_potentially_visible s1 nsx nsy (padding_of s1) then
          let r := tc_add_to_batch s1.tile_cache ty nsx nsy s1.next_handle s1.live_handles
          { s1 with
            tile_cache := r.1
            next_handle := r.2.1
            live_handles := r.2.2
            current_positions := aset s1.current_positions k (ty, nsx, nsy) }
        else { s1 with current_positions := aerase s1.current_positions k }
      else s

/-- `IsometricRenderer._update_dirty_tiles` (renderer.py lines 256-316). -/
def update_dirty_tiles (s : RState) : RState :=
  match s.map_data with
  | none => s
  | some m =>
    match m.header with
    | none => s
    | some _ => s.dirty_tiles.foldl update_dirty_cell s

/-- `for tile in self.tile_cache.values(): tile.delete()`: clear every cached
tile's vertex-list tables and release all their handles. -/
def delete_all_tiles (cache : List (Char × TileR)) (live : List Nat) :
    List (Char × TileR) × List Nat :=
  cache.foldl
    (fun acc ct =>
      (aset acc.1 ct.1 { ct.2 with active := [], state_by_position := [] },
        ct.2.active.foldl (fun l pr => l.erase pr.2) acc.2))
    (cache, live)

/-- `IsometricRenderer._rebuild_batch` (renderer.py lines 139-170). -/
def rebuild_batch (s : RState) : RState :=
  match s.map_data with
  | none => s
  | some m =>
    match m.header with
    | none => s
    | some hd =>
      if s.needs_rebuild then
        let r := delete_all_tiles s.tile_cache s.live_handles
        let s1 :=
          { s with
            tile_cache := r.1
            live_handles := r.2
            current_positions := []
            dirty_tiles := [] }
        let s2 := hd.layers.foldl add_layer_to_batch s1
        { s2 with needs_rebuild := false }
      else if s.dirty_tiles ≠ [] then { update_dirty_tiles s with dirty_tiles := [] }
      else s

/-- `IsometricRenderer.render` (renderer.py lines 350-384); the OpenGL state
calls and the batch draw have no effect on renderer state. -/
def render (s : RState) : RState :=
  match s.map_data with
  | none => s
  | some m =>
    match m.header with
    | none => s
    | some _ => if s.needs_rebuild ∨ s.dirty_tiles ≠ [] then rebuild_batch s else s

/-- `IsometricRenderer.set_offset` (renderer.py lines 103-131). -/
def set_offset (s : RState) (x y : Int) : RState :=
  if x = s.x_offset ∧ y = s.y_offset then s
  else
    if (x - s.x_offset).natAbs > s.viewport_width / 2
        ∨ (y - s.y_offset).natAbs > s.viewport_height / 2 then
      { s with x_offset := x, y_offset := y, needs_rebuild := true }
    else
      { s with
        x_offset := x
        y_offset := y
        dirty_tiles := (akeys s.current_positions).foldl dinsert s.dirty_tiles }

/-- `IsometricRenderer.update_animation` (renderer.py lines 318-348). -/
def update_animation (s : RState) (dt : ℚ) : RState :=
  if s.animation_enabled = false then s
  else
    let e := s.animation_time_elapsed + dt
    if s.animation_frame_time ≤ e then
      let cache2 :=
        s.tile_cache.map (fun ct => if ct.2.animated then (ct.1, advance_state ct.2) else ct)
      let d2 :=
        if s.tile_cache.any (fun ct => ct.2.animated) then
          s.current_positions.foldl
            (fun d e2 =>
              match alook cache2 e2.2.1 with
              | some t => if t.animated then dinsert d e2.1 else d
              | none => d)
            s.dirty_tiles
        else s.dirty_tiles
      { s with animation_time_elapsed := 0, tile_cache := cache2, dirty_tiles := d2 }
    else { s with animation_time_elapsed := e }

/-- `IsometricRenderer.enable_animation` (renderer.py lines 395-402). -/
def enable_animation (s : RState) (b : Bool) : RState := { s with animation_enabled := b }

/-- `IsometricRenderer.cleanup` (renderer.py lines 404-411): delete every
cached tile's vertex lists, then clear the cache, the registry and the dirty
set (the cleared batch is replaced by a fresh one, which carries no state). -/
def cleanup (s : RState) : RState :=
  let r := delete_all_tiles s.tile_cache s.live_handles
  { s with tile_cache := [], current_positions := [], dirty_tiles := [], live_handles := r.2 }

/-- Unique non-empty tile codes of a loaded map, in first-encounter order
(`_init_tiles`, renderer.py lines 86-92). -/
def unique_tiles (m : MDMap) : List Char :=
  m.layers.foldl
    (fun acc lp =>
      lp.2.grid.foldl
        (fun a row => row.foldl (fun b c => if c = '.' then b else dinsert b c) a) acc)
    []

/-- One iteration of the tile-creation loop of `_init_tiles`: cache the tile
on success, record a warning for an unknown code. -/
def init_tile_step (acc : RState × List Char) (c : Char) : RState × List Char :=
  match create_tile c with
  | .ok t => ({ acc.1 with tile_cache := aset acc.1.tile_cache c t }, acc.2)
  | .error _ => (acc.1, acc.2 ++ [c])

/-- `IsometricRenderer._init_tiles` (renderer.py lines 78-101): cleanup, then
create a cached tile per unique code; a `ValueError` from `create_tile` is
caught and surfaced as a warning (returned here as the list of codes whose
factory call failed). -/
def init_tiles (s : RState) : RState × List Char :=
  let s1 := cleanup s
  match s1.map_data with
  | none => (s1, [])
  | some m => (unique_tiles m).foldl init_tile_step (s1, [])

/-- `IsometricRenderer.load_map` (renderer.py lines 59-76): parse, and only on
success install the map, rebuild the tile cache and request a full rebuild;
any parse failure returns `False` with the renderer state untouched.  The
second component is the success flag, the third the surfaced warnings. -/
def load_map (s : RState) (raw : RawMap) : RState × Bool × List Char :=
  match parse_mdmap raw with
  | .error _ => (s, false, [])
  | .ok m =>
    let r := init_tiles { s with map_data := some m }
    ({ r.1 with needs_rebuild := true }, true, r.2)

/-! ### Operation sequences -/

/-- The renderer operations quantified over by the registry invariant:
`set_offset`, `update_animation` and `render`. -/
inductive ROp where
  | set_off (x y : Int)
  | anim (dt : ℚ)
  | draw
  deriving DecidableEq

def rstep (s : RState) : ROp → RState
  | .set_off x y => set_offset s x y
  | .anim dt => update_animation s dt
  | .draw => render s

def rrun (s : RState) (ops : List ROp) : RState := ops.foldl rstep s

/-! ### Invariants -/

/-- All handles referenced by the cached tiles' active vertex-list tables. -/
def handles_of (cache : List (Char × TileR)) : List Nat :=
  (cache.map (fun ct => ct.2.active.map Prod.snd)).flatten

/-- Well-formedness of the GPU handle bookkeeping: tile-cache keys are
unique, each tile holds at most one vertex list per screen position, no
handle is referenced twice, the live-handle ledger is exactly the referenced
handles (so every handle dropped from a table was released first), and the
allocation counter is fresh. -/
def HandlesOK (cache : List (Char × TileR)) (nxt : Nat) (live : List Nat) : Prop :=
  (akeys cache).Nodup
    ∧ (∀ ct ∈ cache, (akeys ct.2.active).Nodup)
    ∧ (handles_of cache).Nodup
    ∧ live.Perm (handles_of cache)
    ∧ ∀ h ∈ live, h < nxt

/-- A registry entry whose recorded screen position matches the projection of
its grid coordinates at the current offset and passes the visibility test. -/
def entry_pos_good (s : RState) (e : Key × (Char × Int × Int)) : Prop :=
  e.2.2.1 = screen_x_of s.x_offset s.tile_width e.1.2.1 e.1.2.2
    ∧ e.2.2.2 = screen_y_of s.y_offset s.tile_height e.1.2.1 e.1.2.2
    ∧ is_potentially_visible s e.2.2.1 e.2.2.2 (padding_of s) = true

/-- A registry entry whose layer exists and whose recorded tile type is the
grid's code at the key and has a cached tile. -/
def entry_ty_good (s : RState) (e : Key × (Char × Int × Int)) : Prop :=
  layer_exists s e.1.1 = true ∧ e.2.1 = code_at s e.1 ∧ e.2.1 ∈ akeys s.tile_cache

/-- Registry coherence: keys are unique, every entry is type-coherent, and —
unless a full rebuild is pending or the key is marked dirty — its recorded
position is current and visible. -/
def InvP (s : RState) : Prop :=
  (akeys s.current_positions).Nodup
    ∧ ∀ e ∈ s.current_positions,
        entry_ty_good s e
          ∧ (s.needs_rebuild = false → e.1 ∉ s.dirty_tiles → entry_pos_good s e)

/-- Tile animation sanity as established by `create_tile`/`set_states`:
`animated` iff more than one state, at least one state, index in range. -/
def InvA (s : RState) : Prop :=
  ∀ ct ∈ s.tile_cache,
    ct.2.animated = decide (1 < ct.2.num_states)
      ∧ 1 ≤ ct.2.num_states ∧ ct.2.current_state_index < ct.2.num_states

/-- The reachable-state invariant of the renderer. -/
def Inv (s : RState) : Prop :=
  HandlesOK s.tile_cache s.next_handle s.live_handles ∧ InvP s ∧ InvA s

/-! ### Grass tile geometry (src/isoline/tile_renderer.py, GrassTile) -/

/-- Vertex data for one animation state: flat coordinate list plus RGBA color
components, as cached in `_vertex_data_cache`. -/
structure VertexData where
  vertices : List ℚ
  colors : List Int
  deriving DecidableEq

/-- Geometry view of a `GrassTile`: the construction-time random draws
(`blade_details`: base x, base y, blade height, sway multiplier — the sway
multiplier is computed from a hash of the base position once, in
`__init__`), the animation-state configuration and the per-state memo cache. -/
structure GrassGeom where
  width : Nat
  height : Nat
  blade_details : List (ℚ × ℚ × ℚ × ℚ)
  num_states : Nat
  animated : Bool
  outline_color : Int × Int × Int × Int
  content_color : Int × Int × Int × Int
  vertex_data_cache : List (Nat × VertexData)
  deriving DecidableEq

/-- Fixed rational stand-in for the float constant `math.pi`. -/
def piQ : ℚ := 355/113

/-- Fixed computable rational stand-in for the float function `math.sin`
(a truncated Taylor series); like the float function, it is a pure function
of its argument, which is all the determinism properties rely on. -/
def sinQ (x : ℚ) : ℚ := x - x^3/6 + x^5/120 - x^7/5040

/-- Python `int()` truncation toward zero, on rationals. -/
def int_trunc (q : ℚ) : Int := if 0 ≤ q then ⌊q⌋ else -⌊-q⌋

/-- `GrassTile._create_content_vertex_data` (tile_renderer.py lines 432-485):
one line segment per blade, swayed by `sin(2π·state/num_states)` scaled by the
blade's construction-time multiplier; blade color brightens towards the middle
states. -/
def grass_content_vertex_data (g : GrassGeom) (state : Nat) : VertexData :=
  let sway_factor : ℚ :=
    if g.animated = true ∧ 1 < g.num_states then
      sinQ (((state : ℚ) / (g.num_states : ℚ)) * 2 * piQ) * 3
    else 0
  let green_factor : ℚ :=
    if g.animated = true ∧ 1 < g.num_states then
      let mid : ℚ := (g.num_states : ℚ) / 2
      9/10 + (1 - |(state : ℚ) - mid| / mid) * (1/5)
    else 1
  g.blade_details.foldl
    (fun vd bd =>
      let blade_sway := sway_factor * bd.2.2.2
      let green : Int := min 255 (int_trunc ((g.content_color.2.1 : ℚ) * green_factor))
      { vertices := vd.vertices ++ [bd.1, bd.2.1, bd.1 + blade_sway, bd.2.1 + bd.2.2.1],
        colors := vd.colors ++
          [g.content_color.1, green, g.content_color.2.2.1, g.content_color.2.2.2,
            g.content_color.1, green, g.content_color.2.2.1, g.content_color.2.2.2] })
    ⟨[], []⟩

/-- `outline_points_relative` of `VectorTile.__init__`. -/
def outline_points_rel (w h : Nat) : List (ℚ × ℚ) :=
  [(((w / 2 : Nat) : ℚ), 0), ((w : ℚ), ((h / 2 : Nat) : ℚ)),
    (((w / 2 : Nat) : ℚ), (h : ℚ)), (0, ((h / 2 : Nat) : ℚ))]

/-- Outline pass of `VectorTile._create_vertex_data` (lines 116-124): the four
diamond edges, each contributing two vertices with the outline color. -/
def outline_vertex_data (g : GrassGeom) : VertexData :=
  let pts := outline_points_rel g.width g.height
  (List.range pts.length).foldl
    (fun vd i =>
      let p1 := pts.getD i (0, 0)
      let p2 := pts.getD ((i + 1) % pts.length) (0, 0)
      { vertices := vd.vertices ++ [p1.1, p1.2, p2.1, p2.2],
        colors := vd.colors ++
          [g.outline_color.1, g.outline_color.2.1, g.outline_color.2.2.1, g.outline_color.2.2.2,
            g.outline_color.1, g.outline_color.2.1, g.outline_color.2.2.1,
            g.outline_color.2.2.2] })
    ⟨[], []⟩

/-- Fallback content colors `self.content_color * num_content_verts_expected`. -/
def content_color_list (g : GrassGeom) (n : Nat) : List Int :=
  (List.range n).foldl
    (fun acc _ =>
      acc ++ [g.content_color.1, g.content_color.2.1, g.content_color.2.2.1,
        g.content_color.2.2.2])
    []

/-- Cache-free body of `VectorTile._create_vertex_data` (lines 113-163):
outline plus subclass content, with the coordinate-count and color-count
consistency checks. -/
def compute_vertex_data (g : GrassGeom) (state : Nat) : VertexData :=
  let o := outline_vertex_data g
  let cd := grass_content_vertex_data g state
  let cv :=
    if cd.vertices.length % 4 ≠ 0 then cd.vertices.take (cd.vertices.length / 4 * 4)
    else cd.vertices
  let cc :=
    if cd.colors.length ≠ cv.length / 2 * 4 then content_color_list g (cv.length / 2)
    else cd.colors
  ⟨o.vertices ++ cv, o.colors ++ cc⟩

/-- `VectorTile._create_vertex_data` with its memo cache
(`_vertex_data_cache`): return the cached data for the state when present,
otherwise compute and cache it. -/
def create_vertex_data (g : GrassGeom) (state : Nat) : VertexData × GrassGeom :=
  match alook g.vertex_data_cache state with
  | some vd => (vd, g)
  | none =>
    let vd := compute_vertex_data g state
    (vd, { g with vertex_data_cache := aset g.vertex_data_cache state vd })

/-- Clearing the memo cache, as `set_states` does
(`self._vertex_data_cache = {}`). -/
def clear_cache (g : GrassGeom) : GrassGeom := { g with vertex_data_cache := [] }

/-! ### Auxiliary views and concrete inputs used by the verification -/

/-- The renderer fields that the batch-maintenance loops never modify; used to
transport projection/visibility facts through the folds. -/
def viewA (s : RState) :
    Option MDMap × Int × Int × Nat × Nat × Nat × Nat × Bool :=
  (s.map_data, s.x_offset, s.y_offset, s.tile_width, s.tile_height,
    s.viewport_width, s.viewport_height, s.needs_rebuild)

/-- Two tile records agreeing on all animation-configuration fields. -/
def SameAnim (a b : TileR) : Prop :=
  a.animated = b.animated ∧ a.num_states = b.num_states
    ∧ a.current_state_index = b.current_state_index

/-- Every registry entry type-coherent and at a current, visible position. -/
def AllGood (s : RState) : Prop :=
  ∀ e ∈ s.current_positions, entry_ty_good s e ∧ entry_pos_good s e

/-- Invariant carried through the incremental-update loop: entries are
type-coherent, and each is either still waiting in the unprocessed suffix of
the dirty list or already at a good position. -/
def DirtyInv (s : RState) (rest : List Key) : Prop :=
  HandlesOK s.tile_cache s.next_handle s.live_handles
    ∧ (akeys s.current_positions).Nodup
    ∧ (∀ e ∈ s.current_positions, entry_ty_good s e ∧ (e.1 ∈ rest ∨ entry_pos_good s e))
    ∧ InvA s

/-- Invariant carried through the full-rebuild loops. -/
def RebuildInv (s : RState) : Prop :=
  HandlesOK s.tile_cache s.next_handle s.live_handles
    ∧ (akeys s.current_positions).Nodup
    ∧ AllGood s
    ∧ InvA s

instance (s : RState) : Decidable (Inv s) := by
  unfold Inv InvP InvA HandlesOK entry_ty_good entry_pos_good
  infer_instance

/-- A well-formed 2x2 single-layer map with two grass cells. -/
def rawG : RawMap :=
  { name_field := some "L"
    size_field := some (2, 2)
    layers_field := some ["t"]
    legend_sections := []
    layer_sections := [("t", [['G', '.'], ['.', 'G']])] }

/-- The parsed form of `rawG`. -/
def mW : MDMap :=
  { header := some { name := "L", width := 2, height := 2, layers := ["t"] }
    layers := [("t", { grid := [['G', '.'], ['.', 'G']], legend := [] })] }

/-- A freshly constructed renderer with `rawG` loaded. -/
def sW : RState := (load_map (mk_renderer) rawG).1

/-- A workload exercising rebuilds, incremental pans, animation frames and a
large camera jump. -/
def opsW : List ROp :=
  [.draw, .set_off 5 0, .draw, .anim 1, .draw, .set_off 1000 0, .draw, .anim (1/4), .draw]

/-- A malformed map: the header declares layer `terrain` of size 10x10 but no
`[layer: terrain]` grid section is present, so the parsed grid stays empty. -/
def rawBad1 : RawMap :=
  { name_field := some "L"
    size_field := some (10, 10)
    layers_field := some ["terrain"]
    legend_sections := []
    layer_sections := [] }

/-- A malformed map: 9 grid rows under a declared 10x10 size. -/
def rawBad2 : RawMap :=
  { name_field := some "L"
    size_field := some (10, 10)
    layers_field := some ["terrain"]
    legend_sections := []
    layer_sections := [("terrain", List.replicate 9 (List.replicate 10 '.'))] }

/-- A well-formed 2x2 map containing the unknown tile code `Z` next to grass. -/
def rawZ : RawMap :=
  { name_field := some "L"
    size_field := some (2, 2)
    layers_field := some ["t"]
    legend_sections := []
    layer_sections := [("t", [['G', 'Z'], ['.', 'G']])] }

/-- A concrete grass-tile geometry instance (two blades, five states). -/
def gW : GrassGeom :=
  { width := 100
    height := 50
    blade_details := [(10, 5, 8, 1/2), (20, 12, 11, -3/10)]
    num_states := 5
    animated := true
    outline_color := (255, 255, 255, 255)
    content_color := (255, 255, 255, 255)
    vertex_data_cache := [] }

/-- Whether a tile code has a registered factory (`create_tile` succeeds
rather than raising `ValueError`). -/
def tile_known (c : Char) : Bool := (create_tile c).toOption.isSome

/-- The state `create_tile` leaves a freshly constructed tile in: empty
vertex-list tables and coherent animation configuration. -/
def TileFresh (t : TileR) : Prop :=
  t.active = [] ∧ t.state_by_position = []
    ∧ t.animated = decide (1 < t.num_states)
    ∧ 1 ≤ t.num_states ∧ t.current_state_index < t.num_states

/-- Modelled from the spec sentence for the visibility test, for comparison
with the code's `_is_potentially_visible`: the axis-aligned rectangle
`[-padding, viewportWidth+padding] x [-padding, viewportHeight+padding]`
with `padding = 2 * max(tileWidth, tileHeight)`. -/
def spec_visible_rect (s : RState) (sx sy : Int) : Bool :=
  decide (-(padding_of s) ≤ sx) && decide (sx ≤ (s.viewport_width : Int) + padding_of s)
    && decide (-(padding_of s) ≤ sy)
    && decide (sy ≤ (s.viewport_height : Int) + padding_of s)

/-- The parsed form of `rawZ`. -/
def mZ : MDMap :=
  { header := some { name := "L", width := 2, height := 2, layers := ["t"] }
    layers := [("t", { grid := [['G', 'Z'], ['.', 'G']], legend := [] })] }

/-! ## Lemmas about the association-list and fold primitives -/

section AListTheorems

variable {α β : Type} [DecidableEq α]

theorem akeys_nil : akeys ([] : List (α × β)) = [] := rfl

theorem akeys_cons (p : α × β) (t : List (α × β)) : akeys (p :: t) = p.1 :: akeys t := rfl

theorem akeys_append (l1 l2 : List (α × β)) : akeys (l1 ++ l2) = akeys l1 ++ akeys l2 := by
  simp [akeys]

theorem alook_isSome_iff (l : List (α × β)) (a : α) :
    (alook l a).isSome = true ↔ a ∈ akeys l := by
  induction l with
  | nil => simp [alook, akeys]
  | cons p t ih =>
    rw [akeys_cons]
    by_cases h : p.1 = a
    · simp [alook, h]
    · simp only [alook, if_neg h, ih, List.mem_cons]
      constructor
      · exact Or.inr
      · rintro (rfl | hm)
        · exact absurd rfl h
        · exact hm

theorem alook_eq_none_of_not_mem {l : List (α × β)} {a : α} (h : a ∉ akeys l) :
    alook l a = none := by
  cases hl : alook l a with
  | none => rfl
  | some b =>
    exact absurd ((alook_isSome_iff l a).1 (by simp [hl])) h

theorem mem_alook {l : List (α × β)} {a : α} {b : β} (h : alook l a = some b) : (a, b) ∈ l := by
  induction l with
  | nil => simp [alook] at h
  | cons p t ih =>
    by_cases hp : p.1 = a
    · simp only [alook, if_pos hp] at h
      cases p with
      | mk pa pb =>
        cases h
        simp only at hp
        subst hp
        exact List.mem_cons_self _ _
    · simp only [alook, if_neg hp] at h
      exact List.mem_cons_of_mem _ (ih h)

theorem alook_of_mem_nodup {l : List (α × β)} {a : α} {b : β}
    (hn : (akeys l).Nodup) (hm : (a, b) ∈ l) : alook l a = some b := by
  induction l with
  | nil => simp at hm
  | cons p t ih =>
    rw [akeys_cons, List.nodup_cons] at hn
    rcases List.mem_cons.1 hm with rfl | hm'
    · simp [alook]
    · have ha : a ∈ akeys t := List.mem_map_of_mem Prod.fst hm'
      have hne : p.1 ≠ a := fun he => hn.1 (he ▸ ha)
      simp only [alook, if_neg hne]
      exact ih hn.2 hm'

theorem alook_aset_self (l : List (α × β)) (a : α) (b : β) :
    alook (aset l a b) a = some b := by
  induction l with
  | nil => simp [aset, alook]
  | cons p t ih =>
    by_cases h : p.1 = a
    · simp [aset, alook, h]
    · simp [aset, alook, h, ih]

theorem alook_aset_ne {a' a : α} (h : a' ≠ a) (l : List (α × β)) (b : β) :
    alook (aset l a b) a' = alook l a' := by
  have hne : ¬ (a = a') := fun he => h he.symm
  induction l with
  | nil => simp [aset, alook, hne]
  | cons p t ih =>
    by_cases hp : p.1 = a
    · have h2 : ¬ (p.1 = a') := by rw [hp]; exact hne
      simp only [aset, if_pos hp, alook, if_neg hne, if_neg h2]
    · simp only [aset, if_neg hp, alook]
      by_cases hp' : p.1 = a'
      · simp [hp']
      · simp [hp', ih]

theorem aset_of_not_mem {l : List (α × β)} {a : α} (h : a ∉ akeys l) (b : β) :
    aset l a b = l ++ [(a, b)] := by
  induction l with
  | nil => simp [aset]
  | cons p t ih =>
    rw [akeys_cons, List.mem_cons] at h
    push_neg at h
    have h2 : ¬ (p.1 = a) := fun he => h.1 he.symm
    simp only [aset, if_neg h2, List.cons_append]
    rw [ih h.2]

theorem akeys_aset_of_mem {l : List (α × β)} {a : α} (h : a ∈ akeys l) (b : β) :
    akeys (aset l a b) = akeys l := by
  induction l with
  | nil => simp [akeys] at h
  | cons p t ih =>
    by_cases hp : p.1 = a
    · simp [aset, hp, akeys_cons]
    · rw [akeys_cons, List.mem_cons] at h
      rcases h with rfl | h'
      · exact absurd rfl hp
      · simp only [aset, if_neg hp, akeys_cons, ih h']

theorem aset_eq_self {l : List (α × β)} {a : α} {b : β} (h : alook l a = some b) :
    aset l a b = l := by
  induction l with
  | nil => simp [alook] at h
  | cons p t ih =>
    by_cases hp : p.1 = a
    · simp only [alook, if_pos hp] at h
      cases p with
      | mk pa pb =>
        cases h
        simp only at hp
        subst hp
        simp [aset]
    · simp only [alook, if_neg hp] at h
      simp [aset, hp, ih h]

theorem adecomp {l : List (α × β)} {a : α} {v : β} (h : alook l a = some v) :
    ∃ L1 L2, l = L1 ++ (a, v) :: L2 ∧ a ∉ akeys L1
      ∧ (∀ b, aset l a b = L1 ++ (a, b) :: L2) ∧ aerase l a = L1 ++ L2 := by
  induction l with
  | nil => simp [alook] at h
  | cons p t ih =>
    by_cases hp : p.1 = a
    · simp only [alook, if_pos hp] at h
      cases p with
      | mk pa pb =>
        cases h
        simp only at hp
        subst hp
        exact ⟨[], t, by simp, by simp [akeys], fun b => by simp [aset], by simp [aerase]⟩
    · simp only [alook, if_neg hp] at h
      obtain ⟨L1, L2, hdec, hnm, hset, hers⟩ := ih h
      refine ⟨p :: L1, L2, by simp [hdec], ?_, ?_, ?_⟩
      · rw [akeys_cons, List.mem_cons]
        push_neg
        exact ⟨fun he => hp he.symm, hnm⟩
      · intro b
        simp [aset, hp, hset b]
      · simp [aerase, hp, hers]

theorem aerase_sublist (l : List (α × β)) (a : α) : List.Sublist (aerase l a) l := by
  induction l with
  | nil => simp [aerase]
  | cons p t ih =>
    by_cases hp : p.1 = a
    · simp only [aerase, if_pos hp]
      exact List.sublist_cons_self p t
    · simp only [aerase, if_neg hp]
      exact ih.cons₂ p

theorem mem_of_mem_aerase {l : List (α × β)} {a : α} {p : α × β} (h : p ∈ aerase l a) :
    p ∈ l := (aerase_sublist l a).subset h

theorem nodup_akeys_aerase {l : List (α × β)} (h : (akeys l).Nodup) (a : α) :
    (akeys (aerase l a)).Nodup :=
  ((aerase_sublist l a).map Prod.fst).nodup h

theorem aerase_of_not_mem {l : List (α × β)} {a : α} (h : a ∉ akeys l) : aerase l a = l := by
  induction l with
  | nil => simp [aerase]
  | cons p t ih =>
    rw [akeys_cons, List.mem_cons] at h
    push_neg at h
    have h2 : ¬ (p.1 = a) := fun he => h.1 he.symm
    simp [aerase, h2, ih h.2]

theorem not_mem_akeys_aerase {l : List (α × β)} (hn : (akeys l).Nodup) (a : α) :
    a ∉ akeys (aerase l a) := by
  by_cases hm : a ∈ akeys l
  · obtain ⟨v, hv⟩ := Option.isSome_iff_exists.1 ((alook_isSome_iff l a).2 hm)
    obtain ⟨L1, L2, hdec, hnm, _, hers⟩ := adecomp hv
    have hn' : (akeys L1 ++ a :: akeys L2).Nodup := by
      rw [hdec, akeys_append, akeys_cons] at hn
      exact hn
    have hmid := List.nodup_cons.1 (List.nodup_middle.1 hn')
    rw [hers, akeys_append]
    exact hmid.1
  · rw [aerase_of_not_mem hm]
    exact hm

theorem nodup_akeys_aset {l : List (α × β)} (h : (akeys l).Nodup) (a : α) (b : β) :
    (akeys (aset l a b)).Nodup := by
  by_cases hm : a ∈ akeys l
  · rw [akeys_aset_of_mem hm]
    exact h
  · rw [aset_of_not_mem hm, akeys_append, akeys_cons, akeys_nil]
    simp [List.nodup_append, h, hm]

theorem mem_aset_weak {l : List (α × β)} {a : α} {b : β} {p : α × β} (h : p ∈ aset l a b) :
    p ∈ l ∨ p = (a, b) := by
  induction l with
  | nil => simp [aset] at h; exact Or.inr h
  | cons q t ih =>
    by_cases hq : q.1 = a
    · simp only [aset, if_pos hq, List.mem_cons] at h
      rcases h with rfl | h'
      · exact Or.inr rfl
      · exact Or.inl (List.mem_cons_of_mem _ h')
    · simp only [aset, if_neg hq, List.mem_cons] at h
      rcases h with rfl | h'
      · exact Or.inl (List.mem_cons_self _ _)
      · rcases ih h' with h2 | h2
        · exact Or.inl (List.mem_cons_of_mem _ h2)
        · exact Or.inr h2

theorem mem_aset_nodup {l : List (α × β)} (hn : (akeys l).Nodup) {a : α} {b : β} {p : α × β}
    (h : p ∈ aset l a b) : p = (a, b) ∨ (p ∈ l ∧ p.1 ≠ a) := by
  by_cases hm : a ∈ akeys l
  · obtain ⟨v, hv⟩ := Option.isSome_iff_exists.1 ((alook_isSome_iff l a).2 hm)
    obtain ⟨L1, L2, hdec, hnm, hset, _⟩ := adecomp hv
    rw [hset b] at h
    have hn' : (akeys L1 ++ a :: akeys L2).Nodup := by
      rw [hdec, akeys_append, akeys_cons] at hn
      exact hn
    have hmid := List.nodup_cons.1 (List.nodup_middle.1 hn')
    rcases List.mem_append.1 h with h1 | h2
    · exact Or.inr ⟨hdec ▸ List.mem_append_left _ h1,
        fun he => hnm (he ▸ List.mem_map_of_mem Prod.fst h1)⟩
    · rcases List.mem_cons.1 h2 with rfl | h3
      · exact Or.inl rfl
      · have ha2 : a ∉ akeys L2 := fun hc => hmid.1 (List.mem_append_right _ hc)
        refine Or.inr ⟨hdec ▸ List.mem_append_right _ (List.mem_cons_of_mem _ h3),
          fun he => ha2 (he ▸ List.mem_map_of_mem Prod.fst h3)⟩
  · rw [aset_of_not_mem hm b] at h
    rcases List.mem_append.1 h with h1 | h2
    · exact Or.inr ⟨h1, fun he => hm (he ▸ List.mem_map_of_mem Prod.fst h1)⟩
    · rcases List.mem_cons.1 h2 with rfl | h3
      · exact Or.inl rfl
      · simp at h3

theorem alook_aerase_ne {a' a : α} (h : a' ≠ a) (l : List (α × β)) :
    alook (aerase l a) a' = alook l a' := by
  induction l with
  | nil => simp [aerase]
  | cons p t ih =>
    by_cases hp : p.1 = a
    · have h2 : ¬ (p.1 = a') := by rw [hp]; exact fun he => h he.symm
      simp only [aerase, if_pos hp, alook, if_neg h2]
    · simp only [aerase, if_neg hp, alook]
      by_cases hp' : p.1 = a'
      · simp [hp']
      · simp [hp', ih]

theorem alook_map_val (g : α → β → β) (l : List (α × β)) (a : α) :
    alook (l.map (fun p => (p.1, g p.1 p.2))) a = (alook l a).map (g a) := by
  induction l with
  | nil => simp [alook]
  | cons p t ih =>
    by_cases hp : p.1 = a
    · subst hp
      simp [alook]
    · simp [alook, hp, ih]

end AListTheorems

theorem mem_dinsert {κ : Type} [DecidableEq κ] {l : List κ} {k k' : κ} :
    k' ∈ dinsert l k ↔ k' ∈ l ∨ k' = k := by
  by_cases h : k ∈ l
  · simp only [dinsert, if_pos h]
    exact ⟨Or.inl, fun | Or.inl h' => h' | Or.inr rfl => h⟩
  · simp [dinsert, if_neg h]

theorem mem_foldl_dinsert {κ : Type} [DecidableEq κ] (xs : List κ) (init : List κ) (k : κ) :
    k ∈ xs.foldl dinsert init ↔ k ∈ init ∨ k ∈ xs := by
  induction xs generalizing init with
  | nil => simp
  | cons x t ih =>
    simp only [List.foldl_cons, ih, mem_dinsert, List.mem_cons]
    tauto

theorem mem_foldl_dinsert_if {ι κ : Type} [DecidableEq κ] (q : ι → Bool) (f : ι → κ)
    (xs : List ι) (init : List κ) (k : κ) :
    k ∈ xs.foldl (fun acc x => if q x then dinsert acc (f x) else acc) init
      ↔ k ∈ init ∨ ∃ x ∈ xs, q x = true ∧ f x = k := by
  induction xs generalizing init with
  | nil => simp
  | cons x t ih =>
    simp only [List.foldl_cons, ih, List.mem_cons]
    by_cases h : q x = true
    · simp only [if_pos h, mem_dinsert]
      constructor
      · rintro (⟨hm | rfl⟩ | ⟨x', hx', hq', hf'⟩)
        · exact Or.inl hm
        · exact Or.inr ⟨x, Or.inl rfl, h, rfl⟩
        · exact Or.inr ⟨x', Or.inr hx', hq', hf'⟩
      · rintro (hm | ⟨x', hx' | hx', hq', hf'⟩)
        · exact Or.inl (Or.inl hm)
        · subst hx'
          exact Or.inl (Or.inr hf'.symm)
        · exact Or.inr ⟨x', hx', hq', hf'⟩
    · simp only [if_neg h]
      constructor
      · rintro (hm | ⟨x', hx', hq', hf'⟩)
        · exact Or.inl hm
        · exact Or.inr ⟨x', Or.inr hx', hq', hf'⟩
      · rintro (hm | ⟨x', hx' | hx', hq', hf'⟩)
        · exact Or.inl hm
        · subst hx'
          exact absurd hq' h
        · exact Or.inr ⟨x', hx', hq', hf'⟩

theorem foldl_inv {σ ι : Type} (P : σ → Prop) (f : σ → ι → σ) (xs : List ι)
    (step : ∀ s x, x ∈ xs → P s → P (f s x)) {s0 : σ} (h0 : P s0) : P (xs.foldl f s0) := by
  induction xs generalizing s0 with
  | nil => exact h0
  | cons x t ih =>
    exact ih (fun s y hy hp => step s y (List.mem_cons_of_mem _ hy) hp)
      (step s0 x (List.mem_cons_self _ _) h0)

theorem foldl_suffix_inv {σ ι : Type} (f : σ → ι → σ) (P : σ → List ι → Prop)
    (step : ∀ s x rest, P s (x :: rest) → P (f s x) rest) :
    ∀ (xs : List ι) (s : σ), P s xs → P (xs.foldl f s) [] := by
  intro xs
  induction xs with
  | nil => intro s h; exact h
  | cons x t ih => intro s h; exact ih _ (step s x t h)

theorem foldl_prod_split {σ τ ι : Type} (F : (σ × τ) → ι → σ) (G : τ → ι → τ) (xs : List ι) :
    ∀ p : σ × τ, (xs.foldl (fun acc x => (F acc x, G acc.2 x)) p).2 = xs.foldl G p.2 := by
  induction xs with
  | nil => intro p; rfl
  | cons x t ih => intro p; exact ih _

theorem handles_of_nil : handles_of [] = [] := rfl

theorem handles_of_cons (ct : Char × TileR) (l : List (Char × TileR)) :
    handles_of (ct :: l) = ct.2.active.map Prod.snd ++ handles_of l := rfl

theorem handles_of_append (l1 l2 : List (Char × TileR)) :
    handles_of (l1 ++ l2) = handles_of l1 ++ handles_of l2 := by
  simp [handles_of]

theorem foldl_erase_eq_nil :
    ∀ (hs l : List Nat), l.Perm hs → hs.foldl (fun acc h => acc.erase h) l = [] := by
  intro hs
  induction hs with
  | nil =>
    intro l hp
    simpa using hp.eq_nil
  | cons h t ih =>
    intro l hp
    simp only [List.foldl_cons]
    exact ih _ ((hp.erase h).trans (by simp [List.erase_cons_head]))

/-! ## GPU handle bookkeeping lemmas -/

theorem same_anim_refl (t : TileR) : SameAnim t t := ⟨rfl, rfl, rfl⟩

theorem akeys_middle_congr (L1 L2 : List (Char × TileR)) (c : Char) (t t' : TileR) :
    akeys (L1 ++ (c, t) :: L2) = akeys (L1 ++ (c, t') :: L2) := by
  simp [akeys_append, akeys_cons]

theorem handles_of_middle (L1 L2 : List (Char × TileR)) (c : Char) (t : TileR) :
    handles_of (L1 ++ (c, t) :: L2)
      = handles_of L1 ++ (t.active.map Prod.snd ++ handles_of L2) := by
  rw [handles_of_append, handles_of_cons]

theorem map_snd_aerase {l : List ((Int × Int) × Nat)} {pos : Int × Int} {h0 : Nat}
    (hh : (l.map Prod.snd).Nodup) (hl : alook l pos = some h0) :
    (aerase l pos).map Prod.snd = (l.map Prod.snd).erase h0 := by
  obtain ⟨L1, L2, hdec, _, _, hers⟩ := adecomp hl
  rw [hers, hdec]
  simp only [List.map_append, List.map_cons]
  have h0nm : h0 ∉ L1.map Prod.snd := by
    rw [hdec] at hh
    simp only [List.map_append, List.map_cons] at hh
    have := List.nodup_cons.1 (List.nodup_middle.1 hh)
    exact fun hc => this.1 (List.mem_append_left _ hc)
  rw [List.erase_append_right _ h0nm, List.erase_cons_head]

/-- Specification of `add_to_batch` by cases: early return; release-then-
reallocate at a position whose state changed; fresh allocation at an
unoccupied position. -/
theorem add_to_batch_spec (t : TileR) (x y : Int) (n : Nat) (live : List Nat) :
    add_to_batch t x y n live = (t, n, live)
    ∨ (∃ h0, alook t.active (x, y) = some h0
        ∧ add_to_batch t x y n live =
          ({ t with
              active := aset (aerase t.active (x, y)) (x, y) n
              state_by_position := aset (aerase t.state_by_position (x, y)) (x, y)
                (get_current_state t) },
            n + 1, n :: live.erase h0))
    ∨ (alook t.active (x, y) = none
        ∧ add_to_batch t x y n live =
          ({ t with
              active := aset t.active (x, y) n
              state_by_position := aset t.state_by_position (x, y) (get_current_state t) },
            n + 1, n :: live)) := by
  unfold add_to_batch
  by_cases h1 : (alook t.active (x, y)).isSome = true
      ∧ alook t.state_by_position (x, y) = some (get_current_state t)
  · left
    rw [if_pos h1]
  · rw [if_neg h1]
    cases h2 : alook t.active (x, y) with
    | some h0 =>
      right; left
      refine ⟨h0, rfl, ?_⟩
      simp only [h2, Option.isSome_some, if_pos]
      unfold delete_vbo_at_position
      rw [h2]
    | none =>
      right; right
      refine ⟨rfl, ?_⟩
      simp only [h2, Option.isSome_none, Bool.false_eq_true, if_neg, if_false]

theorem add_to_batch_fields (t : TileR) (x y : Int) (n : Nat) (live : List Nat) :
    SameAnim (add_to_batch t x y n live).1 t := by
  rcases add_to_batch_spec t x y n live with h | ⟨h0, _, h⟩ | ⟨_, h⟩ <;>
    rw [h] <;> exact ⟨rfl, rfl, rfl⟩

theorem delete_vbo_fields (t : TileR) (pos : Int × Int) (live : List Nat) :
    SameAnim (delete_vbo_at_position t pos live).1 t := by
  unfold delete_vbo_at_position
  cases alook t.active pos <;> exact ⟨rfl, rfl, rfl⟩

/-- Releasing the vertex list at one position of one cached tile preserves the
handle bookkeeping, with the released handle removed from the ledger. -/
theorem handles_ok_delete {L1 L2 : List (Char × TileR)} {c : Char} {t : TileR}
    {n : Nat} {live : List Nat} {pos : Int × Int} {h0 : Nat}
    (hok : HandlesOK (L1 ++ (c, t) :: L2) n live)
    (hl : alook t.active pos = some h0) (sp : List ((Int × Int) × Nat)) :
    HandlesOK (L1 ++ (c, { t with active := aerase t.active pos, state_by_position := sp }) :: L2)
      n (live.erase h0) := by
  obtain ⟨hkc, hact, hH, hperm, hfresh⟩ := hok
  have htmem : (c, t) ∈ L1 ++ (c, t) :: L2 :=
    List.mem_append_right _ (List.mem_cons_self _ _)
  have htact : (akeys t.active).Nodup := hact _ htmem
  have hthandles : (t.active.map Prod.snd).Nodup := by
    have hsub : List.Sublist (t.active.map Prod.snd) (handles_of (L1 ++ (c, t) :: L2)) := by
      rw [handles_of_middle]
      exact ((List.sublist_append_left _ _).trans (List.sublist_append_right _ _))
    exact hH.sublist hsub
  have h0mem : h0 ∈ t.active.map Prod.snd := by
    have := mem_alook hl
    exact List.mem_map_of_mem Prod.snd this
  have h0nm1 : h0 ∉ handles_of L1 := by
    rw [handles_of_middle] at hH
    have hdisj := List.disjoint_of_nodup_append hH
    exact fun hc => hdisj hc (List.mem_append_left _ h0mem)
  constructor
  · rw [akeys_middle_congr _ _ _ _ t]
    exact hkc
  constructor
  · intro ct hct
    rcases List.mem_append.1 hct with h1 | h2
    · exact hact ct (List.mem_append_left _ h1)
    · rcases List.mem_cons.1 h2 with rfl | h3
      · exact nodup_akeys_aerase htact pos
      · exact hact ct (List.mem_append_right _ (List.mem_cons_of_mem _ h3))
  have hH' : handles_of
      (L1 ++ (c, { t with active := aerase t.active pos, state_by_position := sp }) :: L2)
      = handles_of L1 ++ ((t.active.map Prod.snd).erase h0 ++ handles_of L2) := by
    rw [handles_of_middle]
    congr 2
    exact map_snd_aerase hthandles hl
  have herase : (handles_of (L1 ++ (c, t) :: L2)).erase h0
      = handles_of L1 ++ ((t.active.map Prod.snd).erase h0 ++ handles_of L2) := by
    rw [handles_of_middle, List.erase_append_right _ h0nm1,
      List.erase_append_left _ h0mem]
  constructor
  · rw [hH']
    rw [← herase]
    exact hH.erase h0
  constructor
  · rw [hH', ← herase]
    exact hperm.erase h0
  · intro h hm
    exact hfresh h (List.erase_subset _ _ hm)

/-- Allocating a fresh vertex list at an unoccupied position of one cached
tile preserves the handle bookkeeping, with the fresh handle added to the
ledger. -/
theorem handles_ok_insert {L1 L2 : List (Char × TileR)} {c : Char} {t1 : TileR}
    {n : Nat} {live1 : List Nat} (pos : Int × Int) (sp : List ((Int × Int) × Nat))
    (hok : HandlesOK (L1 ++ (c, t1) :: L2) n live1)
    (hposn : pos ∉ akeys t1.active) :
    HandlesOK
      (L1 ++ (c, { t1 with active := aset t1.active pos n, state_by_position := sp }) :: L2)
      (n + 1) (n :: live1) := by
  obtain ⟨hkc, hact, hH, hperm, hfresh⟩ := hok
  have ht1mem : (c, t1) ∈ L1 ++ (c, t1) :: L2 :=
    List.mem_append_right _ (List.mem_cons_self _ _)
  have hasetapp : aset t1.active pos n = t1.active ++ [(pos, n)] := aset_of_not_mem hposn n
  have hH' : handles_of
      (L1 ++ (c, { t1 with active := aset t1.active pos n, state_by_position := sp }) :: L2)
      = handles_of L1 ++ ((t1.active.map Prod.snd ++ [n]) ++ handles_of L2) := by
    rw [handles_of_middle]
    congr 2
    rw [hasetapp]
    simp
  have hHperm : (handles_of L1 ++ ((t1.active.map Prod.snd ++ [n]) ++ handles_of L2)).Perm
      (n :: handles_of (L1 ++ (c, t1) :: L2)) := by
    rw [handles_of_middle]
    have h1 : handles_of L1 ++ ((t1.active.map Prod.snd ++ [n]) ++ handles_of L2)
        = (handles_of L1 ++ t1.active.map Prod.snd) ++ n :: handles_of L2 := by simp
    have h2 : n :: ((handles_of L1 ++ t1.active.map Prod.snd) ++ handles_of L2)
        = n :: (handles_of L1 ++ (t1.active.map Prod.snd ++ handles_of L2)) := by simp
    rw [h1, ← h2]
    exact List.perm_middle
  have hnnotH : n ∉ handles_of (L1 ++ (c, t1) :: L2) := by
    intro hc
    have := hfresh n (hperm.mem_iff.2 hc)
    omega
  constructor
  · rw [akeys_middle_congr _ _ _ _ t1]
    exact hkc
  constructor
  · intro ct hct
    rcases List.mem_append.1 hct with h1 | h2
    · exact hact ct (List.mem_append_left _ h1)
    · rcases List.mem_cons.1 h2 with rfl | h3
      · show (akeys (aset t1.active pos n)).Nodup
        rw [hasetapp, akeys_append]
        simp only [akeys, List.map_cons, List.map_nil]
        rw [List.nodup_append]
        refine ⟨hact _ ht1mem, List.nodup_singleton _, ?_⟩
        intro a ha hb
        simp at hb
        subst hb
        exact hposn ha
      · exact hact ct (List.mem_append_right _ (List.mem_cons_of_mem _ h3))
  constructor
  · rw [hH']
    exact (List.Perm.nodup_iff hHperm).2 (List.nodup_cons.2 ⟨hnnotH, hH⟩)
  constructor
  · rw [hH']
    exact (hperm.cons n).trans hHperm.symm
  · intro h hm
    rcases List.mem_cons.1 hm with rfl | hm'
    · omega
    · have := hfresh h hm'
      omega

theorem tc_add_keys (cache : List (Char × TileR)) (c : Char) (x y : Int) (n : Nat)
    (live : List Nat) :
    akeys (tc_add_to_batch cache c x y n live).1 = akeys cache := by
  cases hc : alook cache c with
  | none => simp [tc_add_to_batch, hc]
  | some t =>
    simp only [tc_add_to_batch, hc]
    exact akeys_aset_of_mem ((alook_isSome_iff cache c).1 (by simp [hc])) _

theorem tc_add_fields {cache : List (Char × TileR)} {c : Char} {x y : Int} {n : Nat}
    {live : List Nat} :
    ∀ ct ∈ (tc_add_to_batch cache c x y n live).1,
      ∃ t0, (ct.1, t0) ∈ cache ∧ SameAnim ct.2 t0 := by
  intro ct hct
  cases hc : alook cache c with
  | none =>
    simp only [tc_add_to_batch, hc] at hct
    exact ⟨ct.2, hct, same_anim_refl _⟩
  | some t =>
    simp only [tc_add_to_batch, hc] at hct
    rcases mem_aset_weak hct with h1 | h1
    · exact ⟨ct.2, h1, same_anim_refl _⟩
    · subst h1
      exact ⟨t, mem_alook hc, add_to_batch_fields t x y n live⟩

theorem tc_add_ok {cache : List (Char × TileR)} {n : Nat} {live : List Nat}
    (hok : HandlesOK cache n live) (c : Char) (x y : Int) :
    HandlesOK (tc_add_to_batch cache c x y n live).1
      (tc_add_to_batch cache c x y n live).2.1 (tc_add_to_batch cache c x y n live).2.2 := by
  cases hc : alook cache c with
  | none => simpa [tc_add_to_batch, hc] using hok
  | some t =>
    obtain ⟨L1, L2, hdec, hnm, hset, _⟩ := adecomp hc
    have hokd : HandlesOK (L1 ++ (c, t) :: L2) n live := hdec ▸ hok
    have htact : (akeys t.active).Nodup :=
      hokd.2.1 _ (List.mem_append_right _ (List.mem_cons_self _ _))
    rcases add_to_batch_spec t x y n live with hsp | ⟨h0, hh0, hsp⟩ | ⟨hnone, hsp⟩
    · simp only [tc_add_to_batch, hc, hsp]
      rw [aset_eq_self hc]
      exact hok
    · simp only [tc_add_to_batch, hc, hsp]
      rw [hset _]
      have hdel := handles_ok_delete hokd hh0 (aerase t.state_by_position (x, y))
      exact handles_ok_insert (x, y)
        (aset (aerase t.state_by_position (x, y)) (x, y) (get_current_state t)) hdel
        (not_mem_akeys_aerase htact (x, y))
    · simp only [tc_add_to_batch, hc, hsp]
      rw [hset _]
      have hposn : (x, y) ∉ akeys t.active := by
        rw [← alook_isSome_iff]
        simp [hnone]
      exact handles_ok_insert (x, y) _ hokd hposn

theorem handles_ok_sbp_only {L1 L2 : List (Char × TileR)} {c : Char} {t : TileR}
    {n : Nat} {live : List Nat} (sp : List ((Int × Int) × Nat))
    (hok : HandlesOK (L1 ++ (c, t) :: L2) n live) :
    HandlesOK (L1 ++ (c, { t with state_by_position := sp }) :: L2) n live := by
  obtain ⟨hkc, hact, hH, hperm, hfresh⟩ := hok
  have hHeq : handles_of (L1 ++ (c, { t with state_by_position := sp }) :: L2)
      = handles_of (L1 ++ (c, t) :: L2) := by
    rw [handles_of_middle, handles_of_middle]
  refine ⟨?_, ?_, ?_, ?_, hfresh⟩
  · rw [akeys_middle_congr _ _ _ _ t]
    exact hkc
  · intro ct hct
    rcases List.mem_append.1 hct with h1 | h2
    · exact hact ct (List.mem_append_left _ h1)
    · rcases List.mem_cons.1 h2 with rfl | h3
      · exact hact (c, t) (List.mem_append_right _ (List.mem_cons_self _ _))
      · exact hact ct (List.mem_append_right _ (List.mem_cons_of_mem _ h3))
  · rw [hHeq]
    exact hH
  · rw [hHeq]
    exact hperm

theorem tc_del_keys (cache : List (Char × TileR)) (c : Char) (pos : Int × Int)
    (live : List Nat) :
    akeys (tc_delete_vbo cache c pos live).1 = akeys cache := by
  cases hc : alook cache c with
  | none => simp [tc_delete_vbo, hc]
  | some t =>
    simp only [tc_delete_vbo, hc]
    exact akeys_aset_of_mem ((alook_isSome_iff cache c).1 (by simp [hc])) _

theorem tc_del_fields {cache : List (Char × TileR)} {c : Char} {pos : Int × Int}
    {live : List Nat} :
    ∀ ct ∈ (tc_delete_vbo cache c pos live).1,
      ∃ t0, (ct.1, t0) ∈ cache ∧ SameAnim ct.2 t0 := by
  intro ct hct
  cases hc : alook cache c with
  | none =>
    simp only [tc_delete_vbo, hc] at hct
    exact ⟨ct.2, hct, same_anim_refl _⟩
  | some t =>
    simp only [tc_delete_vbo, hc] at hct
    rcases mem_aset_weak hct with h1 | h1
    · exact ⟨ct.2, h1, same_anim_refl _⟩
    · subst h1
      exact ⟨t, mem_alook hc, delete_vbo_fields t pos live⟩

theorem tc_del_ok {cache : List (Char × TileR)} {n : Nat} {live : List Nat}
    (hok : HandlesOK cache n live) (c : Char) (pos : Int × Int) :
    HandlesOK (tc_delete_vbo cache c pos live).1 n (tc_delete_vbo cache c pos live).2 := by
  cases hc : alook cache c with
  | none => simpa [tc_delete_vbo, hc] using hok
  | some t =>
    obtain ⟨L1, L2, hdec, hnm, hset, _⟩ := adecomp hc
    have hokd : HandlesOK (L1 ++ (c, t) :: L2) n live := hdec ▸ hok
    cases ha : alook t.active pos with
    | some h0 =>
      simp only [tc_delete_vbo, hc, delete_vbo_at_position, ha]
      rw [hset _]
      exact handles_ok_delete hokd ha (aerase t.state_by_position pos)
    | none =>
      simp only [tc_delete_vbo, hc, delete_vbo_at_position, ha]
      rw [hset _]
      exact handles_ok_sbp_only _ hokd

theorem handles_of_eq_nil {l : List (Char × TileR)} (h : ∀ ct ∈ l, ct.2.active = []) :
    handles_of l = [] := by
  induction l with
  | nil => rfl
  | cons ct rest ih =>
    rw [handles_of_cons, h ct (List.mem_cons_self _ _)]
    simp only [List.map_nil, List.nil_append]
    exact ih (fun ct' hct' => h ct' (List.mem_cons_of_mem _ hct'))

theorem delete_all_snd (cache : List (Char × TileR)) :
    ∀ (acc : List (Char × TileR)) (live : List Nat),
      (cache.foldl
          (fun acc2 ct =>
            (aset acc2.1 ct.1 { ct.2 with active := [], state_by_position := [] },
              ct.2.active.foldl (fun l pr => l.erase pr.2) acc2.2))
          (acc, live)).2
        = (handles_of cache).foldl (fun l2 h => l2.erase h) live := by
  induction cache with
  | nil => intro acc live; rfl
  | cons ct rest ih =>
    intro acc live
    simp only [List.foldl_cons, handles_of_cons, List.foldl_append]
    rw [ih]
    congr 1
    rw [List.foldl_map]

theorem delete_all_fst (cache : List (Char × TileR)) :
    ∀ (acc : List (Char × TileR)) (live : List Nat),
      (cache.foldl
          (fun acc2 ct =>
            (aset acc2.1 ct.1 { ct.2 with active := [], state_by_position := [] },
              ct.2.active.foldl (fun l pr => l.erase pr.2) acc2.2))
          (acc, live)).1
        = cache.foldl
            (fun c2 ct => aset c2 ct.1 { ct.2 with active := [], state_by_position := [] })
            acc := by
  induction cache with
  | nil => intro acc live; rfl
  | cons ct rest ih =>
    intro acc live
    simp only [List.foldl_cons]
    rw [ih]

theorem delete_all_live (cache : List (Char × TileR)) (live : List Nat)
    (hperm : live.Perm (handles_of cache)) :
    (delete_all_tiles cache live).2 = [] := by
  unfold delete_all_tiles
  rw [delete_all_snd cache cache]
  exact foldl_erase_eq_nil _ _ hperm

theorem delete_all_cache (cache : List (Char × TileR)) (live : List Nat)
    (hn : (akeys cache).Nodup) :
    akeys (delete_all_tiles cache live).1 = akeys cache
      ∧ ∀ ct ∈ (delete_all_tiles cache live).1,
          ct.2.active = [] ∧ ∃ t0, (ct.1, t0) ∈ cache ∧ SameAnim ct.2 t0 := by
  unfold delete_all_tiles
  rw [delete_all_fst]
  have main := foldl_suffix_inv
    (fun c2 (ct : Char × TileR) => aset c2 ct.1 { ct.2 with active := [], state_by_position := [] })
    (fun acc rest =>
      akeys acc = akeys cache
        ∧ (∀ x ∈ rest, x ∈ cache)
        ∧ ∀ ct ∈ acc,
            (ct.2.active = [] ∧ ∃ t0, (ct.1, t0) ∈ cache ∧ SameAnim ct.2 t0)
              ∨ (ct ∈ cache ∧ ct.1 ∈ akeys rest))
    ?step cache cache ?init
  case step =>
    rintro acc ct rest ⟨hkeq, hsub, hall⟩
    have hctc : ct ∈ cache := hsub ct (List.mem_cons_self _ _)
    have hctk : ct.1 ∈ akeys acc := by
      rw [hkeq]
      exact List.mem_map_of_mem Prod.fst hctc
    refine ⟨by rw [akeys_aset_of_mem hctk, hkeq], fun x hx => hsub x (List.mem_cons_of_mem _ hx), ?_⟩
    intro p hp
    have haccn : (akeys acc).Nodup := by rw [hkeq]; exact hn
    rcases mem_aset_nodup haccn hp with rfl | ⟨hpm, hpne⟩
    · exact Or.inl ⟨rfl, ct.2, hctc, ⟨rfl, rfl, rfl⟩⟩
    · rcases hall p hpm with hdone | ⟨hpc, hpk⟩
      · exact Or.inl hdone
      · rcases List.mem_cons.1 hpk with he | hk2
        · exact absurd he hpne
        · exact Or.inr ⟨hpc, hk2⟩
  case init =>
    exact ⟨rfl, fun x hx => hx, fun ct hct => Or.inr ⟨hct, List.mem_map_of_mem Prod.fst hct⟩⟩
  obtain ⟨hk, _, hall⟩ := main
  refine ⟨hk, fun ct hct => ?_⟩
  rcases hall ct hct with hdone | ⟨_, hk2⟩
  · exact hdone
  · simp [akeys] at hk2

theorem delete_all_ok {cache : List (Char × TileR)} {n : Nat} {live : List Nat}
    (hok : HandlesOK cache n live) :
    HandlesOK (delete_all_tiles cache live).1 n (delete_all_tiles cache live).2
      ∧ (delete_all_tiles cache live).2 = []
      ∧ akeys (delete_all_tiles cache live).1 = akeys cache
      ∧ ∀ ct ∈ (delete_all_tiles cache live).1,
          ct.2.active = [] ∧ ∃ t0, (ct.1, t0) ∈ cache ∧ SameAnim ct.2 t0 := by
  obtain ⟨hkc, hact, hH, hperm, hfresh⟩ := hok
  obtain ⟨hk, hcc⟩ := delete_all_cache cache live hkc
  have hlv := delete_all_live cache live hperm
  have hHnil : handles_of (delete_all_tiles cache live).1 = [] :=
    handles_of_eq_nil (fun ct hct => (hcc ct hct).1)
  refine ⟨⟨?_, ?_, ?_, ?_, ?_⟩, hlv, hk, hcc⟩
  · rw [hk]; exact hkc
  · intro ct hct
    rw [(hcc ct hct).1]
    simp [akeys]
  · rw [hHnil]; exact List.nodup_nil
  · rw [hlv, hHnil]
  · rw [hlv]; intro h hm; simp at hm

/-! ## Renderer invariant preservation -/

theorem entry_pos_good_congr (s s' : RState)
    (hx : s'.x_offset = s.x_offset) (hy : s'.y_offset = s.y_offset)
    (htw : s'.tile_width = s.tile_width) (hth : s'.tile_height = s.tile_height)
    (hvw : s'.viewport_width = s.viewport_width) (hvh : s'.viewport_height = s.viewport_height)
    (e : Key × (Char × Int × Int)) : entry_pos_good s' e ↔ entry_pos_good s e := by
  unfold entry_pos_good is_potentially_visible padding_of screen_x_of screen_y_of
  rw [hx, hy, htw, hth, hvw, hvh]

theorem entry_ty_good_congr (s s' : RState) (hm : s'.map_data = s.map_data)
    (hk : akeys s'.tile_cache = akeys s.tile_cache) (e : Key × (Char × Int × Int)) :
    entry_ty_good s' e ↔ entry_ty_good s e := by
  unfold entry_ty_good layer_exists code_at
  rw [hm, hk]

theorem inv_a_transfer {s s' : RState}
    (hfields : ∀ ct ∈ s'.tile_cache, ∃ t0, (ct.1, t0) ∈ s.tile_cache ∧ SameAnim ct.2 t0)
    (hA : InvA s) : InvA s' := by
  intro ct hct
  obtain ⟨t0, ht0, hsame⟩ := hfields ct hct
  have h0 := hA (ct.1, t0) ht0
  rw [hsame.1, hsame.2.1, hsame.2.2]
  exact h0

theorem process_cell_map_data (s : RState) (L : String) (grid : List (List Char)) (x y : Nat) :
    (process_cell s L grid x y).map_data = s.map_data := by
  simp only [process_cell]
  split
  · split <;> rfl
  · rfl

theorem process_cell_rebuild {s : RState} {L : String} {grid : List (List Char)}
    {m : MDMap} {ld : LayerData}
    (hs : RebuildInv s) (hm : s.map_data = some m) (hl : get_layer m L = some ld)
    (hg : ld.grid = grid) (x y : Nat) :
    RebuildInv (process_cell s L grid x y) := by
  obtain ⟨hok, hnd, hgood, hA⟩ := hs
  simp only [process_cell]
  split
  case isTrue hhit =>
    split
    case isTrue hvis =>
      refine ⟨tc_add_ok hok _ _ _, nodup_akeys_aset hnd _ _, ?_, ?_⟩
      · intro e he
        rcases mem_aset_nodup hnd he with rfl | ⟨hmem, _⟩
        · constructor
          · unfold entry_ty_good
            refine ⟨?_, ?_, ?_⟩
            · simp only [layer_exists]
              rw [hm]
              simp [hl]
            · simp only [code_at]
              rw [hm]
              simp [hl, hg]
            · exact (tc_add_keys _ _ _ _ _ _).symm ▸ (alook_isSome_iff _ _).1 hhit
          · exact ⟨rfl, rfl, hvis⟩
        · have hold := hgood e hmem
          refine ⟨?_, hold.2⟩
          obtain ⟨hle, hce, hme⟩ := hold.1
          exact ⟨hle, hce, (tc_add_keys _ _ _ _ _ _).symm ▸ hme⟩
      · exact inv_a_transfer tc_add_fields hA
    case isFalse h => exact ⟨hok, hnd, hgood, hA⟩
  case isFalse h => exact ⟨hok, hnd, hgood, hA⟩

theorem add_layer_rebuild {s : RState} (hs : RebuildInv s) (L : String) :
    RebuildInv (add_layer_to_batch s L) ∧ (add_layer_to_batch s L).map_data = s.map_data := by
  unfold add_layer_to_batch
  cases hmd : s.map_data with
  | none => exact ⟨hs, hmd⟩
  | some m =>
    dsimp only
    cases hl : get_layer m L with
    | none =>
      cases hhd : m.header with
      | none => exact ⟨hs, hmd⟩
      | some hd => exact ⟨hs, hmd⟩
    | some ld =>
      cases hhd : m.header with
      | none => exact ⟨hs, hmd⟩
      | some hd =>
        dsimp only
        refine foldl_inv (fun acc => RebuildInv acc ∧ acc.map_data = some m)
          (fun acc y =>
            (List.range hd.width).foldl (fun acc2 x => process_cell acc2 L ld.grid x y) acc)
          (List.range hd.height) ?_ ⟨hs, hmd⟩
        intro acc y _ hacc
        exact foldl_inv (fun acc2 => RebuildInv acc2 ∧ acc2.map_data = some m)
          (fun acc2 x => process_cell acc2 L ld.grid x y) (List.range hd.width)
          (fun acc2 x _ hacc2 =>
            ⟨process_cell_rebuild hacc2.1 hacc2.2 hl rfl x y,
              (process_cell_map_data acc2 L ld.grid x y).trans hacc2.2⟩)
          hacc

/-- Incremental update, visible case: releasing the stale vertex list has
already produced `s1`; re-adding the tile at the new position and overwriting
the registry entry preserves the loop invariant. -/
theorem dirty_vis_core {s1 : RState} {k : Key} {rest : List Key} {ty : Char}
    {nsx nsy : Int}
    (hok1 : HandlesOK s1.tile_cache s1.next_handle s1.live_handles)
    (hnd1 : (akeys s1.current_positions).Nodup)
    (hent1 : ∀ e ∈ s1.current_positions,
      entry_ty_good s1 e ∧ (e.1 ∈ k :: rest ∨ entry_pos_good s1 e))
    (hA1 : InvA s1)
    (hlayer : layer_exists s1 k.1 = true)
    (hcode : code_at s1 k = ty)
    (htymem : ty ∈ akeys s1.tile_cache)
    (hnsx : nsx = screen_x_of s1.x_offset s1.tile_width k.2.1 k.2.2)
    (hnsy : nsy = screen_y_of s1.y_offset s1.tile_height k.2.1 k.2.2)
    (hvis : is_potentially_visible s1 nsx nsy (padding_of s1) = true) :
    DirtyInv
      { s1 with
        tile_cache := (tc_add_to_batch s1.tile_cache ty nsx nsy s1.next_handle s1.live_handles).1
        next_handle := (tc_add_to_batch s1.tile_cache ty nsx nsy s1.next_handle
          s1.live_handles).2.1
        live_handles := (tc_add_to_batch s1.tile_cache ty nsx nsy s1.next_handle
          s1.live_handles).2.2
        current_positions := aset s1.current_positions k (ty, nsx, nsy) }
      rest := by
  refine ⟨tc_add_ok hok1 _ _ _, nodup_akeys_aset hnd1 _ _, ?_, ?_⟩
  · intro e he
    rcases mem_aset_nodup hnd1 he with rfl | ⟨hmem, hne⟩
    · refine ⟨⟨hlayer, hcode.symm, (tc_add_keys _ _ _ _ _ _).symm ▸ htymem⟩, Or.inr ?_⟩
      exact ⟨hnsx, hnsy, hvis⟩
    · obtain ⟨⟨hle, hce, hme⟩, hrest⟩ := hent1 e hmem
      refine ⟨⟨hle, hce, (tc_add_keys _ _ _ _ _ _).symm ▸ hme⟩, ?_⟩
      rcases hrest with hin | hgood
      · rcases List.mem_cons.1 hin with he1 | hin'
        · exact absurd he1 hne
        · exact Or.inl hin'
      · exact Or.inr hgood
  · exact inv_a_transfer tc_add_fields hA1

/-- Incremental update, invisible case: the registry entry is dropped. -/
theorem dirty_invis_core {s1 : RState} {k : Key} {rest : List Key}
    (hok1 : HandlesOK s1.tile_cache s1.next_handle s1.live_handles)
    (hnd1 : (akeys s1.current_positions).Nodup)
    (hent1 : ∀ e ∈ s1.current_positions,
      entry_ty_good s1 e ∧ (e.1 ∈ k :: rest ∨ entry_pos_good s1 e))
    (hA1 : InvA s1) :
    DirtyInv { s1 with current_positions := aerase s1.current_positions k } rest := by
  refine ⟨hok1, nodup_akeys_aerase hnd1 _, ?_, hA1⟩
  intro e he
  have hmem := mem_of_mem_aerase he
  have hne : e.1 ≠ k := by
    intro he1
    have hmk : e.1 ∈ akeys (aerase s1.current_positions k) :=
      List.mem_map_of_mem Prod.fst he
    rw [he1] at hmk
    exact not_mem_akeys_aerase hnd1 k hmk
  obtain ⟨hty, hrest⟩ := hent1 e hmem
  refine ⟨hty, ?_⟩
  rcases hrest with hin | hgood
  · rcases List.mem_cons.1 hin with he1 | hin'
    · exact absurd he1 hne
    · exact Or.inl hin'
  · exact Or.inr hgood

theorem release_old_vbo_facts {s : RState} (k : Key)
    (hok : HandlesOK s.tile_cache s.next_handle s.live_handles) (hA : InvA s) :
    HandlesOK (release_old_vbo s k).tile_cache (release_old_vbo s k).next_handle
        (release_old_vbo s k).live_handles
      ∧ (release_old_vbo s k).current_positions = s.current_positions
      ∧ akeys (release_old_vbo s k).tile_cache = akeys s.tile_cache
      ∧ InvA (release_old_vbo s k)
      ∧ (release_old_vbo s k).map_data = s.map_data
      ∧ (release_old_vbo s k).x_offset = s.x_offset
      ∧ (release_old_vbo s k).y_offset = s.y_offset
      ∧ (release_old_vbo s k).tile_width = s.tile_width
      ∧ (release_old_vbo s k).tile_height = s.tile_height
      ∧ (release_old_vbo s k).viewport_width = s.viewport_width
      ∧ (release_old_vbo s k).viewport_height = s.viewport_height := by
  unfold release_old_vbo
  cases hold : alook s.current_positions k with
  | none => exact ⟨hok, rfl, rfl, hA, rfl, rfl, rfl, rfl, rfl, rfl, rfl⟩
  | some old =>
    dsimp only
    by_cases holdc : (alook s.tile_cache old.1).isSome = true
    · rw [if_pos holdc]
      exact ⟨tc_del_ok hok _ _, rfl, tc_del_keys _ _ _ _,
        inv_a_transfer tc_del_fields hA, rfl, rfl, rfl, rfl, rfl, rfl, rfl⟩
    · rw [if_neg holdc]
      exact ⟨hok, rfl, rfl, hA, rfl, rfl, rfl, rfl, rfl, rfl, rfl⟩

theorem update_dirty_cell_dirtyinv {s : RState} {k : Key} {rest : List Key}
    (h : DirtyInv s (k :: rest)) : DirtyInv (update_dirty_cell s k) rest := by
  obtain ⟨hok, hnd, hent, hA⟩ := h
  have hdemote : ∀ e ∈ s.current_positions, e.1 ≠ k →
      e.1 ∈ rest ∨ entry_pos_good s e := by
    intro e he hne
    rcases (hent e he).2 with hin | hgood
    · rcases List.mem_cons.1 hin with he1 | hin'
      · exact absurd he1 hne
      · exact Or.inl hin'
    · exact Or.inr hgood
  unfold update_dirty_cell
  cases hmd : s.map_data with
  | none =>
    refine ⟨hok, hnd, ?_, hA⟩
    intro e he
    exfalso
    have hle := (hent e he).1.1
    unfold layer_exists at hle
    rw [hmd] at hle
    simp at hle
  | some m =>
    dsimp only
    cases hl : get_layer m k.1 with
    | none =>
      refine ⟨hok, hnd, ?_, hA⟩
      intro e he
      refine ⟨(hent e he).1, ?_⟩
      by_cases hne : e.1 = k
      · exfalso
        have hle := (hent e he).1.1
        rw [hne] at hle
        unfold layer_exists at hle
        rw [hmd] at hle
        dsimp only at hle
        rw [hl] at hle
        simp at hle
      · exact hdemote e he hne
    | some layer =>
      dsimp only
      by_cases htyc :
          (alook s.tile_cache ((layer.grid.getD k.2.2 []).getD k.2.1 '.')).isSome = true
      case neg =>
        rw [if_neg htyc]
        refine ⟨hok, hnd, ?_, hA⟩
        intro e he
        refine ⟨(hent e he).1, ?_⟩
        by_cases hne : e.1 = k
        · exfalso
          obtain ⟨hle, hce, hme⟩ := (hent e he).1
          apply htyc
          rw [alook_isSome_iff]
          have hca : code_at s e.1 = (layer.grid.getD k.2.2 []).getD k.2.1 '.' := by
            rw [hne]
            unfold code_at
            rw [hmd]
            dsimp only
            rw [hl]
          rw [← hca, ← hce]
          exact hme
        · exact hdemote e he hne
      case pos =>
        rw [if_pos htyc]
        obtain ⟨hok1, hpos1, hkeys1, hA1, hmd1, hx1, hy1, htw1, hth1, hvw1, hvh1⟩ :=
          release_old_vbo_facts k hok hA
        have hnd1 : (akeys (release_old_vbo s k).current_positions).Nodup := by
          rw [hpos1]; exact hnd
        have hent1 : ∀ e ∈ (release_old_vbo s k).current_positions,
            entry_ty_good (release_old_vbo s k) e
              ∧ (e.1 ∈ k :: rest ∨ entry_pos_good (release_old_vbo s k) e) := by
          rw [hpos1]
          intro e he
          refine ⟨(entry_ty_good_congr s _ hmd1 hkeys1 e).2 (hent e he).1, ?_⟩
          rcases (hent e he).2 with hin | hgood
          · exact Or.inl hin
          · exact Or.inr ((entry_pos_good_congr s _ hx1 hy1 htw1 hth1 hvw1 hvh1 e).2 hgood)
        have hlayer1 : layer_exists (release_old_vbo s k) k.1 = true := by
          unfold layer_exists
          rw [hmd1, hmd]
          dsimp only
          rw [hl]
          rfl
        have hcode1 : code_at (release_old_vbo s k) k
            = (layer.grid.getD k.2.2 []).getD k.2.1 '.' := by
          unfold code_at
          rw [hmd1, hmd]
          dsimp only
          rw [hl]
        have htymem1 : (layer.grid.getD k.2.2 []).getD k.2.1 '.'
            ∈ akeys (release_old_vbo s k).tile_cache := by
          rw [hkeys1]
          exact (alook_isSome_iff _ _).1 htyc
        have hsx1 : screen_x_of s.x_offset s.tile_width k.2.1 k.2.2
            = screen_x_of (release_old_vbo s k).x_offset (release_old_vbo s k).tile_width
                k.2.1 k.2.2 := by rw [hx1, htw1]
        have hsy1 : screen_y_of s.y_offset s.tile_height k.2.1 k.2.2
            = screen_y_of (release_old_vbo s k).y_offset (release_old_vbo s k).tile_height
                k.2.1 k.2.2 := by rw [hy1, hth1]
        by_cases hvis : is_potentially_visible (release_old_vbo s k)
            (screen_x_of s.x_offset s.tile_width k.2.1 k.2.2)
            (screen_y_of s.y_offset s.tile_height k.2.1 k.2.2)
            (padding_of (release_old_vbo s k)) = true
        · rw [if_pos hvis]
          exact dirty_vis_core hok1 hnd1 hent1 hA1 hlayer1 hcode1 htymem1 hsx1 hsy1 hvis
        · rw [if_neg hvis]
          exact dirty_invis_core hok1 hnd1 hent1 hA1

theorem rebuild_batch_inv {s : RState} (hinv : Inv s) : Inv (rebuild_batch s) := by
  obtain ⟨hok, ⟨hnd, hent⟩, hA⟩ := hinv
  unfold rebuild_batch
  cases hmd : s.map_data with
  | none => exact ⟨hok, ⟨hnd, hent⟩, hA⟩
  | some m =>
    dsimp only
    cases hhd : m.header with
    | none => exact ⟨hok, ⟨hnd, hent⟩, hA⟩
    | some hd =>
      dsimp only
      by_cases hnr : s.needs_rebuild = true
      · rw [if_pos hnr]
        have hda := delete_all_ok hok
        have h1 : RebuildInv
            { s with
              map_data := some m
              tile_cache := (delete_all_tiles s.tile_cache s.live_handles).1
              live_handles := (delete_all_tiles s.tile_cache s.live_handles).2
              current_positions := []
              dirty_tiles := [] } := by
          refine ⟨hda.1, by simp [akeys], ?_, ?_⟩
          · intro e he
            simp at he
          · exact inv_a_transfer (fun ct hct => (hda.2.2.2 ct hct).2) hA
        have h2 := foldl_inv RebuildInv add_layer_to_batch hd.layers
          (fun acc L _ hacc => (add_layer_rebuild hacc L).1) h1
        obtain ⟨h2ok, h2nd, h2good, h2A⟩ := h2
        exact ⟨h2ok, ⟨h2nd, fun e he => ⟨(h2good e he).1, fun _ _ => (h2good e he).2⟩⟩, h2A⟩
      · rw [if_neg hnr]
        have hnr' : s.needs_rebuild = false := by
          cases hb : s.needs_rebuild
          · rfl
          · exact absurd hb hnr
        by_cases hdt : s.dirty_tiles ≠ []
        · rw [if_pos hdt]
          have hDI : DirtyInv s s.dirty_tiles := by
            refine ⟨hok, hnd, ?_, hA⟩
            intro e he
            refine ⟨(hent e he).1, ?_⟩
            by_cases hin : e.1 ∈ s.dirty_tiles
            · exact Or.inl hin
            · exact Or.inr ((hent e he).2 hnr' hin)
          have h2 : DirtyInv (update_dirty_tiles s) [] := by
            unfold update_dirty_tiles
            rw [hmd]
            dsimp only
            rw [hhd]
            dsimp only
            exact foldl_suffix_inv update_dirty_cell DirtyInv
              (fun s' x r hx => update_dirty_cell_dirtyinv hx) s.dirty_tiles s hDI
          obtain ⟨h2ok, h2nd, h2good, h2A⟩ := h2
          refine ⟨h2ok, ⟨h2nd, ?_⟩, h2A⟩
          intro e he
          refine ⟨(h2good e he).1, fun _ _ => ?_⟩
          rcases (h2good e he).2 with hin | hgood
          · simp at hin
          · exact hgood
        · rw [if_neg hdt]
          exact ⟨hok, ⟨hnd, hent⟩, hA⟩

theorem render_inv {s : RState} (hinv : Inv s) : Inv (render s) := by
  unfold render
  cases hmd : s.map_data with
  | none => exact hinv
  | some m =>
    dsimp only
    cases hhd : m.header with
    | none => exact hinv
    | some hd =>
      dsimp only
      by_cases hc : s.needs_rebuild = true ∨ s.dirty_tiles ≠ []
      · rw [if_pos hc]
        exact rebuild_batch_inv hinv
      · rw [if_neg hc]
        exact hinv

theorem set_offset_inv {s : RState} (hinv : Inv s) (x y : Int) :
    Inv (set_offset s x y) := by
  obtain ⟨hok, ⟨hnd, hent⟩, hA⟩ := hinv
  unfold set_offset
  by_cases hsame : x = s.x_offset ∧ y = s.y_offset
  · rw [if_pos hsame]
    exact ⟨hok, ⟨hnd, hent⟩, hA⟩
  · rw [if_neg hsame]
    by_cases hbig : (x - s.x_offset).natAbs > s.viewport_width / 2
        ∨ (y - s.y_offset).natAbs > s.viewport_height / 2
    · rw [if_pos hbig]
      refine ⟨hok, ⟨hnd, ?_⟩, hA⟩
      intro e he
      refine ⟨(hent e he).1, ?_⟩
      intro hfalse
      simp at hfalse
    · rw [if_neg hbig]
      refine ⟨hok, ⟨hnd, ?_⟩, hA⟩
      intro e he
      refine ⟨(hent e he).1, ?_⟩
      intro _ hnin
      exfalso
      apply hnin
      rw [mem_foldl_dinsert]
      exact Or.inr (List.mem_map_of_mem Prod.fst he)

theorem advance_state_active (t : TileR) : (advance_state t).active = t.active := by
  unfold advance_state
  split <;> rfl

theorem advance_state_sbp (t : TileR) :
    (advance_state t).state_by_position = t.state_by_position := by
  unfold advance_state
  split <;> rfl

theorem advance_state_anim (t : TileR) :
    (advance_state t).animated = t.animated ∧ (advance_state t).num_states = t.num_states := by
  unfold advance_state
  split <;> exact ⟨rfl, rfl⟩

theorem advance_map_keys (cache : List (Char × TileR)) :
    akeys (cache.map (fun ct => if ct.2.animated = true then (ct.1, advance_state ct.2) else ct))
      = akeys cache := by
  induction cache with
  | nil => rfl
  | cons ct rest ih =>
    simp only [List.map_cons, akeys_cons, ih]
    congr 1
    by_cases h : ct.2.animated = true <;> simp [h]

theorem advance_map_handles (cache : List (Char × TileR)) :
    handles_of
        (cache.map (fun ct => if ct.2.animated = true then (ct.1, advance_state ct.2) else ct))
      = handles_of cache := by
  induction cache with
  | nil => rfl
  | cons ct rest ih =>
    simp only [List.map_cons, handles_of_cons, ih]
    congr 2
    by_cases h : ct.2.animated = true <;> simp [h, advance_state_active]

theorem dirty_mark_mono (cache2 : List (Char × TileR))
    (ps : List (Key × (Char × Int × Int))) (init : List Key) {k : Key} (hk : k ∈ init) :
    k ∈ ps.foldl
        (fun d e2 =>
          match alook cache2 e2.2.1 with
          | some t => if t.animated = true then dinsert d e2.1 else d
          | none => d)
        init := by
  refine foldl_inv (fun d => k ∈ d)
    (fun d e2 =>
      match alook cache2 e2.2.1 with
      | some t => if t.animated = true then dinsert d e2.1 else d
      | none => d)
    ps ?_ hk
  intro d e2 _ hkd
  dsimp only
  cases h2 : alook cache2 e2.2.1 with
  | none => exact hkd
  | some t =>
    dsimp only
    by_cases ht : t.animated = true
    · rw [if_pos ht, mem_dinsert]
      exact Or.inl hkd
    · rw [if_neg ht]
      exact hkd

theorem update_animation_inv {s : RState} (hinv : Inv s) (dt : ℚ) :
    Inv (update_animation s dt) := by
  obtain ⟨⟨hkc, hact, hH, hperm, hfresh⟩, ⟨hnd, hent⟩, hA⟩ := hinv
  unfold update_animation
  by_cases hen : s.animation_enabled = false
  · rw [if_pos hen]
    exact ⟨⟨hkc, hact, hH, hperm, hfresh⟩, ⟨hnd, hent⟩, hA⟩
  · rw [if_neg hen]
    dsimp only
    by_cases hth : s.animation_frame_time ≤ s.animation_time_elapsed + dt
    · rw [if_pos hth]
      refine ⟨⟨?_, ?_, ?_, ?_, hfresh⟩, ⟨hnd, ?_⟩, ?_⟩
      · rw [advance_map_keys]
        exact hkc
      · intro ct hct
        obtain ⟨ct0, hct0, hfe⟩ := List.mem_map.1 hct
        have : ct.2.active = ct0.2.active := by
          by_cases h : ct0.2.animated = true
          · rw [if_pos h] at hfe
            rw [← hfe]
            exact advance_state_active ct0.2
          · rw [if_neg h] at hfe
            rw [← hfe]
        rw [this]
        exact hact ct0 hct0
      · rw [advance_map_handles]
        exact hH
      · rw [advance_map_handles]
        exact hperm
      · intro e he
        obtain ⟨⟨hle, hce, hme⟩, hcond⟩ := hent e he
        refine ⟨⟨hle, hce, (advance_map_keys s.tile_cache).symm ▸ hme⟩, ?_⟩
        intro hnr2 hnin
        by_cases hany : s.tile_cache.any (fun ct => ct.2.animated) = true
        · rw [if_pos hany] at hnin
          refine hcond hnr2 ?_
          intro hin
          exact hnin (dirty_mark_mono _ _ _ hin)
        · rw [if_neg hany] at hnin
          exact hcond hnr2 hnin
      · intro ct hct
        obtain ⟨ct0, hct0, hfe⟩ := List.mem_map.1 hct
        have h0 := hA ct0 hct0
        by_cases h : ct0.2.animated = true
        · rw [if_pos h] at hfe
          rw [← hfe]
          dsimp only
          obtain ⟨ha1, ha2⟩ := advance_state_anim ct0.2
          refine ⟨by rw [ha1, ha2]; exact h0.1, by rw [ha2]; exact h0.2.1, ?_⟩
          rw [ha2]
          unfold advance_state
          split
          · exact h0.2.2
          · exact Nat.mod_lt _ (by omega)
        · rw [if_neg h] at hfe
          rw [← hfe]
          exact h0
    · rw [if_neg hth]
      exact ⟨⟨hkc, hact, hH, hperm, hfresh⟩, ⟨hnd, fun e he => hent e he⟩, hA⟩

theorem rstep_inv {s : RState} (hinv : Inv s) (o : ROp) : Inv (rstep s o) := by
  cases o with
  | set_off x y => exact set_offset_inv hinv x y
  | anim dt => exact update_animation_inv hinv dt
  | draw => exact render_inv hinv

theorem rrun_inv {s : RState} (hinv : Inv s) (ops : List ROp) : Inv (rrun s ops) :=
  foldl_inv Inv rstep ops (fun _ o _ h => rstep_inv h o) hinv

/-! ## Stability and reachability of the rebuild pass -/

theorem mem_akeys_exists {α β : Type} [DecidableEq α] {l : List (α × β)} {a : α}
    (h : a ∈ akeys l) : ∃ b, (a, b) ∈ l := by
  obtain ⟨p, hp, he⟩ := List.mem_map.1 h
  subst he
  exact ⟨p.2, hp⟩

theorem mem_akeys_aset_self {α β : Type} [DecidableEq α] (l : List (α × β)) (a : α) (b : β) :
    a ∈ akeys (aset l a b) := by
  by_cases h : a ∈ akeys l
  · rw [akeys_aset_of_mem h]
    exact h
  · rw [aset_of_not_mem h, akeys_append]
    simp [akeys]

theorem mem_akeys_aset_sup {α β : Type} [DecidableEq α] {l : List (α × β)} {a' : α}
    (h : a' ∈ akeys l) (a : α) (b : β) : a' ∈ akeys (aset l a b) := by
  by_cases hm : a ∈ akeys l
  · rw [akeys_aset_of_mem hm]
    exact h
  · rw [aset_of_not_mem hm, akeys_append]
    exact List.mem_append_left _ h

/-- The per-cell pass never changes the projection-relevant fields, the map,
the cache keys or the dirty set, and only grows the registry key set. -/
theorem process_cell_stable (s : RState) (L : String) (grid : List (List Char)) (x y : Nat) :
    (process_cell s L grid x y).x_offset = s.x_offset
      ∧ (process_cell s L grid x y).y_offset = s.y_offset
      ∧ (process_cell s L grid x y).tile_width = s.tile_width
      ∧ (process_cell s L grid x y).tile_height = s.tile_height
      ∧ (process_cell s L grid x y).viewport_width = s.viewport_width
      ∧ (process_cell s L grid x y).viewport_height = s.viewport_height
      ∧ (process_cell s L grid x y).map_data = s.map_data
      ∧ (process_cell s L grid x y).needs_rebuild = s.needs_rebuild
      ∧ (process_cell s L grid x y).dirty_tiles = s.dirty_tiles
      ∧ akeys (process_cell s L grid x y).tile_cache = akeys s.tile_cache
      ∧ ∀ k, k ∈ akeys s.current_positions
          → k ∈ akeys (process_cell s L grid x y).current_positions := by
  simp only [process_cell]
  split
  · split
    · exact ⟨rfl, rfl, rfl, rfl, rfl, rfl, rfl, rfl, rfl, tc_add_keys _ _ _ _ _ _,
        fun k hk => mem_akeys_aset_sup hk _ _⟩
    · exact ⟨rfl, rfl, rfl, rfl, rfl, rfl, rfl, rfl, rfl, rfl, fun k hk => hk⟩
  · exact ⟨rfl, rfl, rfl, rfl, rfl, rfl, rfl, rfl, rfl, rfl, fun k hk => hk⟩

/-- Stability bundle for an arbitrary prefix of the rebuild pass. -/
def StableFrom (s acc : RState) : Prop :=
  acc.x_offset = s.x_offset ∧ acc.y_offset = s.y_offset
    ∧ acc.tile_width = s.tile_width ∧ acc.tile_height = s.tile_height
    ∧ acc.viewport_width = s.viewport_width ∧ acc.viewport_height = s.viewport_height
    ∧ acc.map_data = s.map_data ∧ acc.needs_rebuild = s.needs_rebuild
    ∧ acc.dirty_tiles = s.dirty_tiles
    ∧ akeys acc.tile_cache = akeys s.tile_cache

theorem stable_from_refl (s : RState) : StableFrom s s :=
  ⟨rfl, rfl, rfl, rfl, rfl, rfl, rfl, rfl, rfl, rfl⟩

theorem stable_from_process_cell {s acc : RState} (h : StableFrom s acc) (L : String)
    (grid : List (List Char)) (x y : Nat) : StableFrom s (process_cell acc L grid x y) := by
  obtain ⟨p1, p2, p3, p4, p5, p6, p7, p8, p9, p10, _⟩ := process_cell_stable acc L grid x y
  exact ⟨p1.trans h.1, p2.trans h.2.1, p3.trans h.2.2.1, p4.trans h.2.2.2.1,
    p5.trans h.2.2.2.2.1, p6.trans h.2.2.2.2.2.1, p7.trans h.2.2.2.2.2.2.1,
    p8.trans h.2.2.2.2.2.2.2.1, p9.trans h.2.2.2.2.2.2.2.2.1,
    p10.trans h.2.2.2.2.2.2.2.2.2⟩

theorem stable_from_add_layer {s acc : RState} (h : StableFrom s acc) (L : String) :
    StableFrom s (add_layer_to_batch acc L) := by
  unfold add_layer_to_batch
  cases hmd : acc.map_data with
  | none => exact h
  | some m =>
    dsimp only
    cases hl : get_layer m L with
    | none => cases m.header <;> exact h
    | some ld =>
      cases hhd : m.header with
      | none => exact h
      | some hd =>
        dsimp only
        refine foldl_inv (StableFrom s) _ (List.range hd.height) ?_ h
        intro acc2 y _ hacc2
        refine foldl_inv (StableFrom s) _ (List.range hd.width) ?_ hacc2
        intro acc3 x _ hacc3
        exact stable_from_process_cell hacc3 L ld.grid x y

theorem add_layer_pos_mono {s : RState} (L : String) {k : Key}
    (hk : k ∈ akeys s.current_positions) :
    k ∈ akeys (add_layer_to_batch s L).current_positions := by
  unfold add_layer_to_batch
  cases hmd : s.map_data with
  | none => exact hk
  | some m =>
    dsimp only
    cases hl : get_layer m L with
    | none => cases m.header <;> exact hk
    | some ld =>
      cases hhd : m.header with
      | none => exact hk
      | some hd =>
        dsimp only
        refine foldl_inv (fun (acc : RState) => k ∈ akeys acc.current_positions) _
          (List.range hd.height) ?_ hk
        intro acc2 y _ hacc2
        refine foldl_inv (fun (acc : RState) => k ∈ akeys acc.current_positions) _
          (List.range hd.width) ?_ hacc2
        intro acc3 x _ hacc3
        exact (process_cell_stable acc3 L ld.grid x y).2.2.2.2.2.2.2.2.2.2 k hacc3

/-- If the guard conditions of `_add_layer_to_batch` hold for a cell of a
processed layer, the cell's registry key is present after the layer pass. -/
theorem add_layer_reach {s0 acc : RState} {m : MDMap} {hd : MDMapHeader} {ld : LayerData}
    (L : String) (x y : Nat)
    (hst : StableFrom s0 acc)
    (hmd : acc.map_data = some m) (hhd : m.header = some hd) (hl : get_layer m L = some ld)
    (hx : x < hd.width) (hy : y < hd.height)
    (hcode : ((ld.grid.getD y []).getD x '.') ∈ akeys s0.tile_cache)
    (hvis : is_potentially_visible s0 (screen_x_of s0.x_offset s0.tile_width x y)
      (screen_y_of s0.y_offset s0.tile_height x y) (padding_of s0) = true) :
    (L, x, y) ∈ akeys (add_layer_to_batch acc L).current_positions := by
  unfold add_layer_to_batch
  simp only [hmd, hl, hhd]
  obtain ⟨A, B, hAB⟩ := List.append_of_mem (List.mem_range.2 hy)
  rw [hAB, List.foldl_append, List.foldl_cons]
  set accA := A.foldl
    (fun acc2 y2 =>
      (List.range hd.width).foldl (fun acc3 x2 => process_cell acc3 L ld.grid x2 y2) acc2)
    acc with haccA
  have hstA : StableFrom s0 accA := by
    rw [haccA]
    refine foldl_inv (StableFrom s0) _ A ?_ hst
    intro acc2 y2 _ hacc2
    refine foldl_inv (StableFrom s0) _ (List.range hd.width) ?_ hacc2
    intro acc3 x2 _ hacc3
    exact stable_from_process_cell hacc3 L ld.grid x2 y2
  obtain ⟨A2, B2, hAB2⟩ := List.append_of_mem (List.mem_range.2 hx)
  rw [hAB2, List.foldl_append, List.foldl_cons]
  set accAx := A2.foldl (fun acc3 x2 => process_cell acc3 L ld.grid x2 y) accA with haccAx
  have hstAx : StableFrom s0 accAx := by
    rw [haccAx]
    refine foldl_inv (StableFrom s0) _ A2 ?_ hstA
    intro acc3 x2 _ hacc3
    exact stable_from_process_cell hacc3 L ld.grid x2 y
  have hkey : (L, x, y) ∈ akeys (process_cell accAx L ld.grid x y).current_positions := by
    obtain ⟨q1, q2, q3, q4, q5, q6, _, _, _, q10⟩ := hstAx
    simp only [process_cell]
    rw [if_pos ?hit]
    case hit =>
      rw [alook_isSome_iff, q10]
      exact hcode
    rw [if_pos ?vis]
    case vis =>
      show is_potentially_visible accAx
        (screen_x_of accAx.x_offset accAx.tile_width x y)
        (screen_y_of accAx.y_offset accAx.tile_height x y) (padding_of accAx) = true
      rw [show padding_of accAx = padding_of s0 by unfold padding_of; rw [q3, q4]]
      rw [q1, q3, q2, q4]
      unfold is_potentially_visible at hvis ⊢
      rw [q3, q4, q5, q6]
      exact hvis
    exact mem_akeys_aset_self _ _ _
  refine foldl_inv (fun (acc2 : RState) => (L, x, y) ∈ akeys acc2.current_positions) _ B ?_ ?_
  · intro acc2 y2 _ hacc2
    refine foldl_inv (fun (acc3 : RState) => (L, x, y) ∈ akeys acc3.current_positions) _ _
      ?_ hacc2
    intro acc3 x2 _ hacc3
    exact (process_cell_stable acc3 L ld.grid x2 y2).2.2.2.2.2.2.2.2.2.2 _ hacc3
  · refine foldl_inv (fun (acc3 : RState) => (L, x, y) ∈ akeys acc3.current_positions) _ B2
      ?_ hkey
    intro acc3 x2 _ hacc3
    exact (process_cell_stable acc3 L ld.grid x2 y).2.2.2.2.2.2.2.2.2.2 _ hacc3

theorem mem_akeys_aset_iff {α β : Type} [DecidableEq α] (l : List (α × β)) (a : α) (b : β)
    (a' : α) : a' ∈ akeys (aset l a b) ↔ a' ∈ akeys l ∨ a' = a := by
  by_cases hm : a ∈ akeys l
  · rw [akeys_aset_of_mem hm]
    exact ⟨Or.inl, fun | Or.inl h => h | Or.inr rfl => hm⟩
  · rw [aset_of_not_mem hm, akeys_append]
    simp [akeys]

theorem release_old_vbo_stable (s : RState) (k : Key) :
    (release_old_vbo s k).needs_rebuild = s.needs_rebuild
      ∧ (release_old_vbo s k).map_data = s.map_data
      ∧ (release_old_vbo s k).dirty_tiles = s.dirty_tiles
      ∧ akeys (release_old_vbo s k).tile_cache = akeys s.tile_cache := by
  unfold release_old_vbo
  cases hold : alook s.current_positions k with
  | none => exact ⟨rfl, rfl, rfl, rfl⟩
  | some old =>
    dsimp only
    by_cases holdc : (alook s.tile_cache old.1).isSome = true
    · rw [if_pos holdc]
      exact ⟨rfl, rfl, rfl, tc_del_keys _ _ _ _⟩
    · rw [if_neg holdc]
      exact ⟨rfl, rfl, rfl, rfl⟩

theorem update_dirty_cell_stable (s : RState) (k : Key) :
    (update_dirty_cell s k).needs_rebuild = s.needs_rebuild
      ∧ (update_dirty_cell s k).map_data = s.map_data
      ∧ (update_dirty_cell s k).dirty_tiles = s.dirty_tiles
      ∧ akeys (update_dirty_cell s k).tile_cache = akeys s.tile_cache := by
  obtain ⟨r1, r2, r3, r4⟩ := release_old_vbo_stable s k
  unfold update_dirty_cell
  cases hmd : s.map_data with
  | none => exact ⟨rfl, hmd, rfl, rfl⟩
  | some m =>
    dsimp only
    cases hl : get_layer m k.1 with
    | none => exact ⟨rfl, hmd, rfl, rfl⟩
    | some layer =>
      dsimp only
      by_cases htyc :
          (alook s.tile_cache ((layer.grid.getD k.2.2 []).getD k.2.1 '.')).isSome = true
      · rw [if_pos htyc]
        by_cases hvis : is_potentially_visible (release_old_vbo s k)
            (screen_x_of s.x_offset s.tile_width k.2.1 k.2.2)
            (screen_y_of s.y_offset s.tile_height k.2.1 k.2.2)
            (padding_of (release_old_vbo s k)) = true
        · rw [if_pos hvis]
          exact ⟨r1, r2.trans hmd, r3, (tc_add_keys _ _ _ _ _ _).trans r4⟩
        · rw [if_neg hvis]
          exact ⟨r1, r2.trans hmd, r3, r4⟩
      · rw [if_neg htyc]
        exact ⟨rfl, hmd, rfl, rfl⟩

theorem delete_all_keys (cache : List (Char × TileR)) (live : List Nat) :
    akeys (delete_all_tiles cache live).1 = akeys cache := by
  unfold delete_all_tiles
  rw [delete_all_fst]
  refine foldl_inv (fun (c2 : List (Char × TileR)) => akeys c2 = akeys cache) _ cache ?_ rfl
  intro c2 ct hct hc2
  have : ct.1 ∈ akeys c2 := by
    rw [hc2]
    exact List.mem_map_of_mem Prod.fst hct
  rw [akeys_aset_of_mem this, hc2]

theorem render_stable (s : RState) :
    (render s).map_data = s.map_data
      ∧ akeys (render s).tile_cache = akeys s.tile_cache := by
  unfold render
  cases hmd : s.map_data with
  | none => exact ⟨hmd, rfl⟩
  | some m =>
    dsimp only
    cases hhd : m.header with
    | none => exact ⟨hmd, rfl⟩
    | some hd =>
      dsimp only
      by_cases hc : s.needs_rebuild = true ∨ s.dirty_tiles ≠ []
      · rw [if_pos hc]
        unfold rebuild_batch
        rw [hmd]
        dsimp only
        rw [hhd]
        dsimp only
        by_cases hnr : s.needs_rebuild = true
        · rw [if_pos hnr]
          have hst : StableFrom
              { s with
                map_data := some m
                tile_cache := (delete_all_tiles s.tile_cache s.live_handles).1
                live_handles := (delete_all_tiles s.tile_cache s.live_handles).2
                current_positions := []
                dirty_tiles := [] }
              (hd.layers.foldl add_layer_to_batch
                { s with
                  map_data := some m
                  tile_cache := (delete_all_tiles s.tile_cache s.live_handles).1
                  live_handles := (delete_all_tiles s.tile_cache s.live_handles).2
                  current_positions := []
                  dirty_tiles := [] }) := by
            refine foldl_inv (StableFrom _) _ hd.layers ?_ (stable_from_refl _)
            intro acc L _ hacc
            exact stable_from_add_layer hacc L
          refine ⟨hst.2.2.2.2.2.2.1, ?_⟩
          exact hst.2.2.2.2.2.2.2.2.2.trans (delete_all_keys _ _)

        · rw [if_neg hnr]
          by_cases hdt : s.dirty_tiles ≠ []
          · rw [if_pos hdt]
            have hfold : ∀ (ks : List Key) (s0 : RState),
                (ks.foldl update_dirty_cell s0).map_data = s0.map_data
                  ∧ akeys (ks.foldl update_dirty_cell s0).tile_cache
                      = akeys s0.tile_cache := by
              intro ks
              induction ks with
              | nil => intro s0; exact ⟨rfl, rfl⟩
              | cons k2 rest ih =>
                intro s0
                obtain ⟨q1, q2, q3, q4⟩ := update_dirty_cell_stable s0 k2
                simp only [List.foldl_cons]
                exact ⟨(ih _).1.trans q2, (ih _).2.trans q4⟩
            unfold update_dirty_tiles
            rw [hmd]
            dsimp only
            rw [hhd]
            dsimp only
            exact ⟨(hfold s.dirty_tiles s).1.trans hmd, (hfold s.dirty_tiles s).2⟩
          · rw [if_neg hdt]
            exact ⟨hmd, rfl⟩
      · rw [if_neg hc]
        exact ⟨hmd, rfl⟩

theorem render_flags {s : RState} {m : MDMap} {hd : MDMapHeader}
    (hmd : s.map_data = some m) (hhd : m.header = some hd) :
    (render s).needs_rebuild = false ∧ (render s).dirty_tiles = [] := by
  unfold render
  rw [hmd]
  dsimp only
  rw [hhd]
  dsimp only
  by_cases hc : s.needs_rebuild = true ∨ s.dirty_tiles ≠ []
  · rw [if_pos hc]
    unfold rebuild_batch
    rw [hmd]
    dsimp only
    rw [hhd]
    dsimp only
    by_cases hnr : s.needs_rebuild = true
    · rw [if_pos hnr]
      have hst : ∀ (Ls : List String) (s0 : RState),
          (Ls.foldl add_layer_to_batch s0).needs_rebuild = s0.needs_rebuild
            ∧ (Ls.foldl add_layer_to_batch s0).dirty_tiles = s0.dirty_tiles := by
        intro Ls
        induction Ls with
        | nil => intro s0; exact ⟨rfl, rfl⟩
        | cons L rest ih =>
          intro s0
          have h1 := stable_from_add_layer (stable_from_refl s0) L
          simp only [List.foldl_cons]
          exact ⟨(ih _).1.trans h1.2.2.2.2.2.2.2.1, (ih _).2.trans h1.2.2.2.2.2.2.2.2.1⟩
      exact ⟨rfl, (hst hd.layers _).2⟩
    · rw [if_neg hnr]
      by_cases hdt : s.dirty_tiles ≠ []
      · rw [if_pos hdt]
        refine ⟨?_, rfl⟩
        have hfold : ∀ (ks : List Key) (s0 : RState),
            (ks.foldl update_dirty_cell s0).needs_rebuild = s0.needs_rebuild := by
          intro ks
          induction ks with
          | nil => intro s0; rfl
          | cons k2 rest ih =>
            intro s0
            simp only [List.foldl_cons]
            exact (ih _).trans (update_dirty_cell_stable s0 k2).1
        unfold update_dirty_tiles
        rw [hmd]
        dsimp only
        rw [hhd]
        dsimp only
        refine (hfold s.dirty_tiles s).trans ?_
        cases hb : s.needs_rebuild
        · rfl
        · exact absurd hb hnr
      · rw [if_neg hdt]
        push_neg at hdt
        rcases hc with hc1 | hc2
        · exact absurd hc1 hnr
        · exact absurd hdt hc2
  · rw [if_neg hc]
    push_neg at hc
    constructor
    · cases hb : s.needs_rebuild
      · rfl
      · exact absurd hb hc.1
    · exact hc.2

theorem layers_reach {s1 : RState} {m : MDMap} {hd : MDMapHeader} {ld : LayerData}
    (L : String) (x y : Nat)
    (hmd : s1.map_data = some m) (hhd : m.header = some hd) (hl : get_layer m L = some ld)
    (hLmem : L ∈ hd.layers) (hx : x < hd.width) (hy : y < hd.height)
    (hcode : ((ld.grid.getD y []).getD x '.') ∈ akeys s1.tile_cache)
    (hvis : is_potentially_visible s1 (screen_x_of s1.x_offset s1.tile_width x y)
      (screen_y_of s1.y_offset s1.tile_height x y) (padding_of s1) = true) :
    (L, x, y) ∈ akeys (hd.layers.foldl add_layer_to_batch s1).current_positions := by
  obtain ⟨P, Q, hPQ⟩ := List.append_of_mem hLmem
  rw [hPQ, List.foldl_append, List.foldl_cons]
  have hstP : StableFrom s1 (P.foldl add_layer_to_batch s1) := by
    refine foldl_inv (StableFrom s1) _ P ?_ (stable_from_refl s1)
    intro acc L2 _ hacc
    exact stable_from_add_layer hacc L2
  have hkey := add_layer_reach L x y hstP (hstP.2.2.2.2.2.2.1.trans hmd) hhd hl hx hy
    hcode hvis
  refine foldl_inv (fun (acc : RState) => (L, x, y) ∈ akeys acc.current_positions) _ Q
    ?_ hkey
  intro acc L2 _ hacc
  exact add_layer_pos_mono L2 hacc

/-! ## Lemmas about tile initialisation and animation marking -/

theorem dirty_mark_step (cache2 : List (Char × TileR)) (d : List Key)
    (e : Key × (Char × Int × Int)) (k : Key) :
    (k ∈ match alook cache2 e.2.1 with
        | some t => if t.animated = true then dinsert d e.1 else d
        | none => d)
      ↔ k ∈ d ∨ (e.1 = k ∧ ∃ t, alook cache2 e.2.1 = some t ∧ t.animated = true) := by
  cases h2 : alook cache2 e.2.1 with
  | none => simp
  | some t =>
    dsimp only
    by_cases ht : t.animated = true
    · rw [if_pos ht, mem_dinsert]
      constructor
      · rintro (hm | rfl)
        · exact Or.inl hm
        · exact Or.inr ⟨rfl, t, rfl, ht⟩
      · rintro (hm | ⟨rfl, t2, ht2, ha2⟩)
        · exact Or.inl hm
        · exact Or.inr rfl
    · rw [if_neg ht]
      constructor
      · exact Or.inl
      · rintro (hm | ⟨rfl, t2, ht2, ha2⟩)
        · exact hm
        · rw [Option.some_inj] at ht2
          subst ht2
          exact absurd ha2 ht

theorem dirty_mark_mem (cache2 : List (Char × TileR))
    (ps : List (Key × (Char × Int × Int))) (init : List Key) (k : Key) :
    k ∈ ps.foldl
        (fun d e2 =>
          match alook cache2 e2.2.1 with
          | some t => if t.animated = true then dinsert d e2.1 else d
          | none => d)
        init
      ↔ k ∈ init
          ∨ ∃ e ∈ ps, e.1 = k ∧ ∃ t, alook cache2 e.2.1 = some t ∧ t.animated = true := by
  induction ps generalizing init with
  | nil => simp
  | cons e rest ih =>
    rw [List.foldl_cons, ih]
    rw [dirty_mark_step]
    simp only [List.mem_cons]
    constructor
    · rintro ((hm | hP) | ⟨e2, he2, hk2, hT⟩)
      · exact Or.inl hm
      · exact Or.inr ⟨e, Or.inl rfl, hP⟩
      · exact Or.inr ⟨e2, Or.inr he2, hk2, hT⟩
    · rintro (hm | ⟨e2, rfl | he2, hk2, hT⟩)
      · exact Or.inl (Or.inl hm)
      · exact Or.inl (Or.inr ⟨hk2, hT⟩)
      · exact Or.inr ⟨e2, he2, hk2, hT⟩

theorem alook_advance_cache (cache : List (Char × TileR)) (c : Char) :
    alook (cache.map (fun ct => if ct.2.animated then (ct.1, advance_state ct.2) else ct)) c
      = (alook cache c).map (fun t => if t.animated then advance_state t else t) := by
  have hmap : cache.map (fun ct => if ct.2.animated then (ct.1, advance_state ct.2) else ct)
      = cache.map (fun ct => (ct.1, if ct.2.animated then advance_state ct.2 else ct.2)) := by
    refine List.map_congr_left ?_
    intro p _
    by_cases hp : p.2.animated
    · simp only [if_pos hp]
    · simp only [if_neg hp]
  rw [hmap]
  exact alook_map_val (fun _ t => if t.animated then advance_state t else t) cache c

theorem create_tile_fresh {c : Char} {t : TileR} (h : create_tile c = Except.ok t) :
    TileFresh t := by
  unfold create_tile at h
  by_cases hc : c = 'G' ∨ c = 'g'
  · rw [if_pos hc] at h
    injection h with h2
    subst h2
    exact ⟨rfl, rfl, by decide, by decide, by decide⟩
  · rw [if_neg hc] at h
    cases h

theorem tile_known_iff (c : Char) :
    tile_known c = true ↔ ∃ t, create_tile c = Except.ok t := by
  unfold tile_known
  cases h : create_tile c with
  | ok t => simp [Except.toOption]
  | error e => simp [Except.toOption]

theorem init_fold_keep (codes : List Char) (p0 : RState × List Char) :
    (codes.foldl init_tile_step p0).1.map_data = p0.1.map_data
      ∧ (codes.foldl init_tile_step p0).1.current_positions = p0.1.current_positions
      ∧ (codes.foldl init_tile_step p0).1.live_handles = p0.1.live_handles := by
  refine foldl_inv
    (fun (q : RState × List Char) =>
      q.1.map_data = p0.1.map_data ∧ q.1.current_positions = p0.1.current_positions
        ∧ q.1.live_handles = p0.1.live_handles)
    init_tile_step codes ?_ ⟨rfl, rfl, rfl⟩
  intro q c _ hq
  unfold init_tile_step
  cases hcr : create_tile c with
  | ok t => exact hq
  | error e => exact hq

theorem init_fold_keys (codes : List Char) :
    ∀ (p0 : RState × List Char) (c : Char),
      c ∈ akeys (codes.foldl init_tile_step p0).1.tile_cache
        ↔ c ∈ akeys p0.1.tile_cache ∨ (c ∈ codes ∧ ∃ t, create_tile c = Except.ok t) := by
  induction codes with
  | nil =>
    intro p0 c
    simp
  | cons c0 rest ih =>
    intro p0 c
    rw [List.foldl_cons, ih]
    unfold init_tile_step
    cases hcr : create_tile c0 with
    | ok t =>
      dsimp only
      rw [mem_akeys_aset_iff]
      constructor
      · rintro ((hm | rfl) | ⟨hc, ht⟩)
        · exact Or.inl hm
        · exact Or.inr ⟨List.mem_cons_self _ _, t, hcr⟩
        · exact Or.inr ⟨List.mem_cons_of_mem _ hc, ht⟩
      · rintro (hm | ⟨hmem, ht⟩)
        · exact Or.inl (Or.inl hm)
        · rcases List.mem_cons.1 hmem with rfl | hc2
          · exact Or.inl (Or.inr rfl)
          · exact Or.inr ⟨hc2, ht⟩
    | error e =>
      dsimp only
      constructor
      · rintro (hm | ⟨hc, ht⟩)
        · exact Or.inl hm
        · exact Or.inr ⟨List.mem_cons_of_mem _ hc, ht⟩
      · rintro (hm | ⟨hmem, ht⟩)
        · exact Or.inl hm
        · rcases List.mem_cons.1 hmem with rfl | hc2
          · obtain ⟨t2, ht2⟩ := ht
            rw [hcr] at ht2
            cases ht2
          · exact Or.inr ⟨hc2, ht⟩

theorem init_fold_entries (codes : List Char) (p0 : RState × List Char) :
    ∀ ct ∈ (codes.foldl init_tile_step p0).1.tile_cache,
      ct ∈ p0.1.tile_cache ∨ TileFresh ct.2 := by
  refine foldl_inv
    (fun (q : RState × List Char) =>
      ∀ ct ∈ q.1.tile_cache, ct ∈ p0.1.tile_cache ∨ TileFresh ct.2)
    init_tile_step codes ?_ (fun ct hm => Or.inl hm)
  intro q c _ hq
  unfold init_tile_step
  cases hcr : create_tile c with
  | ok t =>
    dsimp only
    intro ct hct
    rcases mem_aset_weak hct with hm | rfl
    · exact hq ct hm
    · exact Or.inr (create_tile_fresh hcr)
  | error e => exact hq

theorem init_fold_nodup (codes : List Char) (p0 : RState × List Char)
    (h0 : (akeys p0.1.tile_cache).Nodup) :
    (akeys (codes.foldl init_tile_step p0).1.tile_cache).Nodup := by
  refine foldl_inv (fun (q : RState × List Char) => (akeys q.1.tile_cache).Nodup)
    init_tile_step codes ?_ h0
  intro q c _ hq
  unfold init_tile_step
  cases hcr : create_tile c with
  | ok t =>
    dsimp only
    exact nodup_akeys_aset hq c t
  | error e => exact hq

theorem init_fold_warn (codes : List Char) :
    ∀ p0 : RState × List Char,
      (codes.foldl init_tile_step p0).2 = p0.2 ++ codes.filter (fun c => !tile_known c) := by
  induction codes with
  | nil =>
    intro p0
    simp
  | cons c0 rest ih =>
    intro p0
    rw [List.foldl_cons, ih]
    unfold init_tile_step
    cases hcr : create_tile c0 with
    | ok t =>
      dsimp only
      have hk : tile_known c0 = true := by
        unfold tile_known
        rw [hcr]
        rfl
      rw [List.filter_cons]
      simp [hk]
    | error e =>
      dsimp only
      have hk : tile_known c0 = false := by
        unfold tile_known
        rw [hcr]
        rfl
      rw [List.filter_cons]
      simp [hk]

theorem mem_inner_insert (row : List Char) :
    ∀ (b : List Char) (c : Char),
      c ∈ row.foldl (fun b c => if c = '.' then b else dinsert b c) b
        ↔ c ∈ b ∨ (c ∈ row ∧ c ≠ '.') := by
  induction row with
  | nil =>
    intro b c
    simp
  | cons c0 rest ih =>
    intro b c
    rw [List.foldl_cons, ih]
    by_cases h0 : c0 = '.'
    · rw [if_pos h0]
      subst h0
      constructor
      · rintro (hm | ⟨hr, hne⟩)
        · exact Or.inl hm
        · exact Or.inr ⟨List.mem_cons_of_mem _ hr, hne⟩
      · rintro (hm | ⟨hmem, hne⟩)
        · exact Or.inl hm
        · rcases List.mem_cons.1 hmem with rfl | hr
          · exact absurd rfl hne
          · exact Or.inr ⟨hr, hne⟩
    · rw [if_neg h0]
      constructor
      · rintro (hm | ⟨hr, hne⟩)
        · rcases mem_dinsert.1 hm with hm2 | rfl
          · exact Or.inl hm2
          · exact Or.inr ⟨List.mem_cons_self _ _, h0⟩
        · exact Or.inr ⟨List.mem_cons_of_mem _ hr, hne⟩
      · rintro (hm | ⟨hmem, hne⟩)
        · exact Or.inl (mem_dinsert.2 (Or.inl hm))
        · rcases List.mem_cons.1 hmem with rfl | hr
          · exact Or.inl (mem_dinsert.2 (Or.inr rfl))
          · exact Or.inr ⟨hr, hne⟩

theorem mem_grid_insert (grid : List (List Char)) :
    ∀ (a : List Char) (c : Char),
      c ∈ grid.foldl
          (fun a row => row.foldl (fun b c => if c = '.' then b else dinsert b c) a) a
        ↔ c ∈ a ∨ ∃ row ∈ grid, c ∈ row ∧ c ≠ '.' := by
  induction grid with
  | nil =>
    intro a c
    simp
  | cons r rest ih =>
    intro a c
    rw [List.foldl_cons, ih, mem_inner_insert]
    constructor
    · rintro ((hm | ⟨hr, hne⟩) | ⟨row, hrow, hc, hne⟩)
      · exact Or.inl hm
      · exact Or.inr ⟨r, List.mem_cons_self _ _, hr, hne⟩
      · exact Or.inr ⟨row, List.mem_cons_of_mem _ hrow, hc, hne⟩
    · rintro (hm | ⟨row, hrow, hc, hne⟩)
      · exact Or.inl (Or.inl hm)
      · rcases List.mem_cons.1 hrow with rfl | hrow2
        · exact Or.inl (Or.inr ⟨hc, hne⟩)
        · exact Or.inr ⟨row, hrow2, hc, hne⟩

theorem mem_layers_insert (ls : List (String × LayerData)) :
    ∀ (a : List Char) (c : Char),
      c ∈ ls.foldl
          (fun acc lp =>
            lp.2.grid.foldl
              (fun a row => row.foldl (fun b c => if c = '.' then b else dinsert b c) a) acc)
          a
        ↔ c ∈ a ∨ ∃ lp ∈ ls, ∃ row ∈ lp.2.grid, c ∈ row ∧ c ≠ '.' := by
  induction ls with
  | nil =>
    intro a c
    simp
  | cons lp rest ih =>
    intro a c
    rw [List.foldl_cons, ih, mem_grid_insert]
    constructor
    · rintro ((hm | ⟨row, hrow, hc, hne⟩) | ⟨lp2, hlp2, row, hrow, hc, hne⟩)
      · exact Or.inl hm
      · exact Or.inr ⟨lp, List.mem_cons_self _ _, row, hrow, hc, hne⟩
      · exact Or.inr ⟨lp2, List.mem_cons_of_mem _ hlp2, row, hrow, hc, hne⟩
    · rintro (hm | ⟨lp2, hlp2, row, hrow, hc, hne⟩)
      · exact Or.inl (Or.inl hm)
      · rcases List.mem_cons.1 hlp2 with rfl | h2
        · exact Or.inl (Or.inr ⟨row, hrow, hc, hne⟩)
        · exact Or.inr ⟨lp2, h2, row, hrow, hc, hne⟩

theorem mem_unique_tiles (m : MDMap) (c : Char) :
    c ∈ unique_tiles m ↔ ∃ lp ∈ m.layers, ∃ row ∈ lp.2.grid, c ∈ row ∧ c ≠ '.' := by
  unfold unique_tiles
  rw [mem_layers_insert]
  simp

theorem code_mem_unique {m : MDMap} {L : String} {ld : LayerData}
    (hl : get_layer m L = some ld) (x y : Nat)
    (hne : (ld.grid.getD y []).getD x '.' ≠ '.') :
    (ld.grid.getD y []).getD x '.' ∈ unique_tiles m := by
  rw [mem_unique_tiles]
  have hlp : (L, ld) ∈ m.layers := mem_alook hl
  by_cases hy : y < ld.grid.length
  · by_cases hx : x < (ld.grid.getD y []).length
    · refine ⟨(L, ld), hlp, ld.grid.getD y [], ?_, ?_, hne⟩
      · rw [List.getD_eq_getElem ld.grid [] hy]
        exact List.getElem_mem hy
      · rw [List.getD_eq_getElem _ '.' hx]
        exact List.getElem_mem hx
    · exact absurd (List.getD_eq_default _ '.' (Nat.le_of_not_lt hx)) hne
  · refine absurd ?_ hne
    rw [List.getD_eq_default _ [] (Nat.le_of_not_lt hy)]
    rfl

theorem load_map_facts {s : RState} {raw : RawMap} {m : MDMap}
    (hp : parse_mdmap raw = Except.ok m) :
    (load_map s raw).2.1 = true
      ∧ (load_map s raw).1.map_data = some m
      ∧ (load_map s raw).1.needs_rebuild = true
      ∧ (load_map s raw).1.current_positions = []
      ∧ (load_map s raw).1.live_handles = (delete_all_tiles s.tile_cache s.live_handles).2
      ∧ (∀ c, c ∈ akeys (load_map s raw).1.tile_cache
            ↔ c ∈ unique_tiles m ∧ ∃ t, create_tile c = Except.ok t)
      ∧ (load_map s raw).2.2 = (unique_tiles m).filter (fun c => !tile_known c)
      ∧ (∀ ct ∈ (load_map s raw).1.tile_cache, TileFresh ct.2)
      ∧ (akeys (load_map s raw).1.tile_cache).Nodup := by
  unfold load_map
  rw [hp]
  dsimp only
  unfold init_tiles cleanup
  dsimp only
  refine ⟨rfl, ?_, rfl, ?_, ?_, ?_, ?_, ?_, ?_⟩
  · exact (init_fold_keep _ _).1
  · exact (init_fold_keep _ _).2.1
  · exact (init_fold_keep _ _).2.2
  · intro c
    rw [init_fold_keys]
    simp [akeys]
  · exact init_fold_warn _ _
  · intro ct hct
    rcases init_fold_entries _ _ ct hct with hm | hf
    · cases hm
    · exact hf
  · exact init_fold_nodup _ _ List.nodup_nil

theorem mk_renderer_inv (w h : Nat) : Inv (mk_renderer w h) := by
  unfold Inv HandlesOK InvP InvA mk_renderer
  refine ⟨⟨?_, ?_, ?_, ?_, ?_⟩, ⟨?_, ?_⟩, ?_⟩ <;> simp [handles_of, akeys]

theorem load_map_inv {s : RState} (hinv : Inv s) (raw : RawMap) :
    Inv (load_map s raw).1 := by
  cases hp : parse_mdmap raw with
  | error e =>
    unfold load_map
    rw [hp]
    exact hinv
  | ok m =>
    obtain ⟨hflag, hmd, hnr, hcur, hlive, hkeys, hwarn, hfresh, hnodup⟩ := load_map_facts hp
    have hlv : (load_map s raw).1.live_handles = [] := by
      rw [hlive]
      exact delete_all_live s.tile_cache s.live_handles hinv.1.2.2.2.1
    have hhnil : handles_of (load_map s raw).1.tile_cache = [] :=
      handles_of_eq_nil (fun ct hct => (hfresh ct hct).1)
    refine ⟨⟨hnodup, ?_, ?_, ?_, ?_⟩, ⟨?_, ?_⟩, ?_⟩
    · intro ct hct
      rw [(hfresh ct hct).1]
      exact List.nodup_nil
    · rw [hhnil]
      exact List.nodup_nil
    · rw [hlv, hhnil]
    · rw [hlv]
      intro h2 hm
      exact absurd hm (List.not_mem_nil _)
    · rw [hcur]
      exact List.nodup_nil
    · intro e he
      rw [hcur] at he
      exact absurd he (List.not_mem_nil _)
    · intro ct hct
      obtain ⟨_, _, ha, hn1, hidx⟩ := hfresh ct hct
      exact ⟨ha, hn1, hidx⟩

theorem render_reach {s : RState} {m : MDMap} {hd : MDMapHeader} {ld : LayerData}
    (L : String) (x y : Nat)
    (hmd : s.map_data = some m) (hhd : m.header = some hd) (hl : get_layer m L = some ld)
    (hnr : s.needs_rebuild = true)
    (hLmem : L ∈ hd.layers) (hx : x < hd.width) (hy : y < hd.height)
    (hcode : ((ld.grid.getD y []).getD x '.') ∈ akeys s.tile_cache)
    (hvis : is_potentially_visible s (screen_x_of s.x_offset s.tile_width x y)
      (screen_y_of s.y_offset s.tile_height x y) (padding_of s) = true) :
    (L, x, y) ∈ akeys (render s).current_positions := by
  unfold render
  rw [hmd]
  dsimp only
  rw [hhd]
  dsimp only
  rw [if_pos (Or.inl hnr)]
  unfold rebuild_batch
  rw [hmd]
  dsimp only
  rw [hhd]
  dsimp only
  rw [if_pos hnr]
  have hcode2 : ((ld.grid.getD y []).getD x '.')
      ∈ akeys (delete_all_tiles s.tile_cache s.live_handles).1 := by
    rw [delete_all_keys]
    exact hcode
  exact layers_reach L x y rfl hhd hl hLmem hx hy hcode2 hvis

theorem half_div_bound (a : Nat) :
    |(((a / 2 : Nat) : ℚ)) - (a : ℚ) / 2| ≤ 1 / 2 := by
  have hdm : 2 * ((a / 2 : Nat) : ℚ) + ((a % 2 : Nat) : ℚ) = (a : ℚ) := by
    exact_mod_cast congrArg (fun n : Nat => (n : ℚ)) (Nat.div_add_mod a 2)
  have h0 : (0 : ℚ) ≤ ((a % 2 : Nat) : ℚ) := Nat.cast_nonneg _
  have h1 : ((a % 2 : Nat) : ℚ) ≤ 1 := by
    have h2 : a % 2 ≤ 1 := Nat.lt_succ_iff.1 (Nat.mod_lt a (by norm_num))
    exact_mod_cast h2
  rw [abs_le]
  constructor <;> linarith

theorem screen_x_close (off : Int) (tw gx gy : Nat) :
    |((screen_x_of off tw gx gy : Int) : ℚ)
        - ((off : ℚ) + (gx : ℚ) * (tw : ℚ) / 2 - (gy : ℚ) * (tw : ℚ) / 2)| ≤ 1 := by
  have b1 := half_div_bound (gx * tw)
  have b2 := half_div_bound (gy * tw)
  have hc : ((screen_x_of off tw gx gy : Int) : ℚ)
      = (off : ℚ) + ((gx * tw / 2 : Nat) : ℚ) - ((gy * tw / 2 : Nat) : ℚ) := by
    unfold screen_x_of
    rw [Int.cast_sub, Int.cast_add, Int.cast_natCast, Int.cast_natCast]
  rw [hc, abs_le]
  rw [abs_le] at b1 b2
  push_cast at b1 b2
  constructor <;> linarith

theorem screen_y_close (off : Int) (th gx gy : Nat) :
    |((screen_y_of off th gx gy : Int) : ℚ)
        - ((off : ℚ) + (gx : ℚ) * (th : ℚ) / 2 + (gy : ℚ) * (th : ℚ) / 2)| ≤ 1 := by
  have b1 := half_div_bound (gx * th)
  have b2 := half_div_bound (gy * th)
  have hc : ((screen_y_of off th gx gy : Int) : ℚ)
      = (off : ℚ) + ((gx * th / 2 : Nat) : ℚ) + ((gy * th / 2 : Nat) : ℚ) := by
    unfold screen_y_of
    rw [Int.cast_add, Int.cast_add, Int.cast_natCast, Int.cast_natCast]
  rw [hc, abs_le]
  rw [abs_le] at b1 b2
  push_cast at b1 b2
  constructor <;> linarith

/-! ## The claims -/

/-- C3: `update_animation(dt)` accumulates `dt`; once the accumulated time
reaches the frame interval it resets the accumulator to zero, advances every
animated tile's state index by one modulo its state count (leaving
non-animated tiles untouched), and the keys it marks dirty are exactly the
registry entries whose recorded tile type resolves to an animated cached
tile; a tile type with a single state is never advanced (its `animated` flag
is false) and every newly marked key references a tile with more than one
state. -/
theorem C3_update_animation (s : RState) (dt : ℚ)
    (hen : s.animation_enabled = true) (ha : InvA s) :
    (s.animation_time_elapsed + dt < s.animation_frame_time →
        update_animation s dt
          = { s with animation_time_elapsed := s.animation_time_elapsed + dt })
      ∧ (s.animation_frame_time ≤ s.animation_time_elapsed + dt →
          (update_animation s dt).animation_time_elapsed = 0
            ∧ (∀ ct ∈ s.tile_cache,
                (ct.2.animated = true →
                    (ct.1, { ct.2 with current_state_index :=
                        (ct.2.current_state_index + 1) % ct.2.num_states })
                      ∈ (update_animation s dt).tile_cache)
                  ∧ (ct.2.animated = false → ct ∈ (update_animation s dt).tile_cache)
                  ∧ (ct.2.num_states = 1 → ct ∈ (update_animation s dt).tile_cache))
            ∧ (∀ k : Key, k ∈ (update_animation s dt).dirty_tiles
                ↔ k ∈ s.dirty_tiles
                    ∨ ∃ e ∈ s.current_positions, e.1 = k
                        ∧ ∃ t, alook s.tile_cache e.2.1 = some t ∧ t.animated = true)
            ∧ (∀ k : Key, k ∉ s.dirty_tiles → k ∈ (update_animation s dt).dirty_tiles →
                ∃ e ∈ s.current_positions, e.1 = k
                    ∧ ∃ t, alook s.tile_cache e.2.1 = some t ∧ 1 < t.num_states)) := by
  have hne : ¬(s.animation_enabled = false) := by
    rw [hen]
    simp
  constructor
  · intro hlt
    unfold update_animation
    rw [if_neg hne]
    dsimp only
    rw [if_neg (not_le.2 hlt)]
  · intro hge
    have helapsed : (update_animation s dt).animation_time_elapsed = 0 := by
      unfold update_animation
      rw [if_neg hne]
      dsimp only
      rw [if_pos hge]
    have hcache : (update_animation s dt).tile_cache
        = s.tile_cache.map
            (fun ct => if ct.2.animated then (ct.1, advance_state ct.2) else ct) := by
      unfold update_animation
      rw [if_neg hne]
      dsimp only
      rw [if_pos hge]
    have hstatic : ∀ ct ∈ s.tile_cache, ct.2.animated = false →
        ct ∈ (update_animation s dt).tile_cache := by
      intro ct hct hanimf
      rw [hcache]
      have hm := List.mem_map_of_mem
        (fun (ct : Char × TileR) => if ct.2.animated then (ct.1, advance_state ct.2) else ct)
        hct
      dsimp only at hm
      rw [if_neg (by rw [hanimf]; simp : ¬(ct.2.animated = true))] at hm
      exact hm
    have hiffc : ∀ c : Char,
        (∃ t, alook (s.tile_cache.map
              (fun ct => if ct.2.animated then (ct.1, advance_state ct.2) else ct)) c
            = some t ∧ t.animated = true)
          ↔ (∃ t, alook s.tile_cache c = some t ∧ t.animated = true) := by
      intro c
      rw [alook_advance_cache]
      cases halc : alook s.tile_cache c with
      | none => simp
      | some t =>
        simp only [Option.map_some']
        constructor
        · rintro ⟨t2, ht2, ha2⟩
          rw [Option.some_inj] at ht2
          subst ht2
          by_cases hta : t.animated = true
          · exact ⟨t, rfl, hta⟩
          · rw [if_neg hta] at ha2
            exact absurd ha2 hta
        · rintro ⟨t2, ht2, ha2⟩
          rw [Option.some_inj] at ht2
          subst ht2
          refine ⟨if t.animated then advance_state t else t, rfl, ?_⟩
          rw [if_pos ha2, (advance_state_anim t).1]
          exact ha2
    have hiffk : ∀ k : Key, k ∈ (update_animation s dt).dirty_tiles
        ↔ k ∈ s.dirty_tiles
            ∨ ∃ e ∈ s.current_positions, e.1 = k
                ∧ ∃ t, alook s.tile_cache e.2.1 = some t ∧ t.animated = true := by
      intro k
      unfold update_animation
      rw [if_neg hne]
      dsimp only
      rw [if_pos hge]
      dsimp only
      by_cases hany : s.tile_cache.any (fun ct => ct.2.animated) = true
      · rw [if_pos hany, dirty_mark_mem]
        constructor
        · rintro (hm | ⟨e, he, hek, hT⟩)
          · exact Or.inl hm
          · exact Or.inr ⟨e, he, hek, (hiffc e.2.1).1 hT⟩
        · rintro (hm | ⟨e, he, hek, hT⟩)
          · exact Or.inl hm
          · exact Or.inr ⟨e, he, hek, (hiffc e.2.1).2 hT⟩
      · rw [if_neg hany]
        constructor
        · exact Or.inl
        · rintro (hm | ⟨e, he, hek, t, halk, hanim⟩)
          · exact hm
          · exfalso
            apply hany
            rw [List.any_eq_true]
            exact ⟨(e.2.1, t), mem_alook halk, hanim⟩
    refine ⟨helapsed, ?_, hiffk, ?_⟩
    · intro ct hct
      refine ⟨?_, hstatic ct hct, ?_⟩
      · intro hanim
        have hns := (ha ct hct).2.1
        have hcond : ¬(ct.2.animated = false ∨ ct.2.num_states = 0) := by
          rintro (h1 | h2)
          · rw [hanim] at h1
            cases h1
          · omega
        have hadv2 : advance_state ct.2
            = { ct.2 with current_state_index :=
                (ct.2.current_state_index + 1) % ct.2.num_states } := by
          unfold advance_state
          rw [if_neg hcond]
        rw [hcache]
        have hm := List.mem_map_of_mem
          (fun (ct : Char × TileR) => if ct.2.animated then (ct.1, advance_state ct.2) else ct)
          hct
        dsimp only at hm
        rw [if_pos hanim, hadv2] at hm
        exact hm
      · intro hns1
        refine hstatic ct hct ?_
        rw [(ha ct hct).1, hns1]
        rfl
    · intro k hk1 hk2
      rcases (hiffk k).1 hk2 with hm | ⟨e, he, hek, t, halk, hanim⟩
      · exact absurd hm hk1
      · refine ⟨e, he, hek, t, halk, ?_⟩
        have h3 := (ha (e.2.1, t) (mem_alook halk)).1
        rw [hanim] at h3
        exact of_decide_eq_true h3.symm

/-- C1: after loading any map into a fresh renderer and running any sequence
of `set_offset` / `update_animation` / `render` calls, the live-handle ledger
is exactly (a permutation of) the handles referenced by the tiles' active
vertex-list tables — so a handle dropped from a table was always released
first — no handle is referenced twice, each tile holds at most one vertex
list per screen position, and the registry holds at most one entry per
`(layer, gridX, gridY)` key. -/
theorem C1_handle_registry (w h : Nat) (raw : RawMap) (ops : List ROp) :
    ((rrun (load_map (mk_renderer w h) raw).1 ops).live_handles).Perm
        (handles_of (rrun (load_map (mk_renderer w h) raw).1 ops).tile_cache)
      ∧ (handles_of (rrun (load_map (mk_renderer w h) raw).1 ops).tile_cache).Nodup
      ∧ (∀ ct ∈ (rrun (load_map (mk_renderer w h) raw).1 ops).tile_cache,
          (akeys ct.2.active).Nodup)
      ∧ (akeys (rrun (load_map (mk_renderer w h) raw).1 ops).current_positions).Nodup := by
  have h1 := rrun_inv (load_map_inv (mk_renderer_inv w h) raw) ops
  exact ⟨h1.1.2.2.2.1, h1.1.2.2.1, h1.1.2.1, h1.2.1.1⟩

/-- C2: `set_offset(x, y)` is a no-op when `(x, y)` equals the current
offset; when the offset change exceeds half the viewport dimension (a
threshold fraction within the spec's 1/3 to 1/2 range) it requests a full
rebuild; otherwise it leaves the rebuild flag alone and the keys it marks
dirty are exactly the currently-registered cell keys. -/
theorem C2_set_offset (s : RState) (x y : Int) :
    (x = s.x_offset ∧ y = s.y_offset → set_offset s x y = s)
      ∧ (¬(x = s.x_offset ∧ y = s.y_offset) →
          ((x - s.x_offset).natAbs > s.viewport_width / 2
              ∨ (y - s.y_offset).natAbs > s.viewport_height / 2 →
            (set_offset s x y).needs_rebuild = true
              ∧ (set_offset s x y).x_offset = x ∧ (set_offset s x y).y_offset = y)
            ∧ (¬((x - s.x_offset).natAbs > s.viewport_width / 2
                  ∨ (y - s.y_offset).natAbs > s.viewport_height / 2) →
                (set_offset s x y).needs_rebuild = s.needs_rebuild
                  ∧ (set_offset s x y).x_offset = x ∧ (set_offset s x y).y_offset = y
                  ∧ ∀ k : Key, k ∈ (set_offset s x y).dirty_tiles
                      ↔ k ∈ s.dirty_tiles ∨ k ∈ akeys s.current_positions)) := by
  refine ⟨?_, ?_⟩
  · intro hxy
    unfold set_offset
    rw [if_pos hxy]
  · intro hdiff
    constructor
    · intro hbig
      unfold set_offset
      rw [if_neg hdiff, if_pos hbig]
      exact ⟨rfl, rfl, rfl⟩
    · intro hsmall
      unfold set_offset
      rw [if_neg hdiff, if_neg hsmall]
      refine ⟨rfl, rfl, rfl, ?_⟩
      intro k
      exact mem_foldl_dinsert (akeys s.current_positions) s.dirty_tiles k

theorem C2_set_offset_witness :
    set_offset sW 0 0 = sW
      ∧ (set_offset sW 1000 0).needs_rebuild = true
      ∧ (set_offset (render sW) 5 0).needs_rebuild = (render sW).needs_rebuild
      ∧ ("t", 0, 0) ∈ (set_offset (render sW) 5 0).dirty_tiles := by
  have h1 := (C2_set_offset sW 0 0).1 (by decide)
  have h2 := ((C2_set_offset sW 1000 0).2 (by decide)).1 (by decide)
  have h3 := ((C2_set_offset (render sW) 5 0).2 (by decide)).2 (by decide)
  exact ⟨h1, h2.1, h3.1, (h3.2.2.2 ("t", 0, 0)).2 (Or.inr (by decide))⟩

theorem C3_update_animation_witness :
    sW.animation_enabled = true
      ∧ (update_animation sW (1/8)).animation_time_elapsed = 1/8
      ∧ (update_animation sW 1).animation_time_elapsed = 0 := by
  have he0 : sW.animation_time_elapsed = 0 := rfl
  have hf : sW.animation_frame_time = 1/4 := rfl
  have hA : InvA sW := (by decide : Inv sW).2.2
  have h1 := (C3_update_animation sW (1/8) rfl hA).1 (by rw [he0, hf]; norm_num)
  have h2 := ((C3_update_animation sW 1 rfl hA).2 (by rw [he0, hf]; norm_num)).1
  refine ⟨rfl, ?_, h2⟩
  rw [h1, he0]
  show (0 : ℚ) + 1/8 = 1/8
  norm_num

/-- C4: the screen position used by both the full-rebuild pass and the
incremental dirty-cell pass is the shared projection
`screen_x_of` / `screen_y_of`, a deterministic function of the grid
coordinates and offsets; it matches the closed-form
`offset + gx*tile/2 - gy*tile/2` (and the sum form for y) within one unit of
integer rounding, and
on any coherent quiescent state every registry entry records exactly that
projection of its own grid coordinates. -/
theorem C4_projection (s : RState) :
    (∀ (off : Int) (tw th gx gy : Nat),
        |((screen_x_of off tw gx gy : Int) : ℚ)
            - ((off : ℚ) + (gx : ℚ) * (tw : ℚ) / 2 - (gy : ℚ) * (tw : ℚ) / 2)| ≤ 1
          ∧ |((screen_y_of off th gx gy : Int) : ℚ)
              - ((off : ℚ) + (gx : ℚ) * (th : ℚ) / 2 + (gy : ℚ) * (th : ℚ) / 2)| ≤ 1)
      ∧ (Inv s → s.needs_rebuild = false → s.dirty_tiles = [] →
          ∀ e ∈ s.current_positions,
            e.2.2.1 = screen_x_of s.x_offset s.tile_width e.1.2.1 e.1.2.2
              ∧ e.2.2.2 = screen_y_of s.y_offset s.tile_height e.1.2.1 e.1.2.2) := by
  constructor
  · intro off tw th gx gy
    exact ⟨screen_x_close off tw gx gy, screen_y_close off th gx gy⟩
  · intro hinv hnr hdt e he
    have hg := (hinv.2.1.2 e he).2 hnr (by rw [hdt]; exact List.not_mem_nil _)
    exact ⟨hg.1, hg.2.1⟩

theorem C4_projection_witness :
    (("t", 0, 0), ('G', (0 : Int), (0 : Int))) ∈ (render sW).current_positions
      ∧ (0 : Int) = screen_x_of (render sW).x_offset (render sW).tile_width 0 0
      ∧ (0 : Int) = screen_y_of (render sW).y_offset (render sW).tile_height 0 0 := by
  have hmem : (("t", 0, 0), ('G', (0 : Int), (0 : Int))) ∈ (render sW).current_positions := by
    decide
  have hg := (C4_projection (render sW)).2 (by decide) (by decide) (by decide)
    (("t", 0, 0), ('G', (0 : Int), (0 : Int))) hmem
  exact ⟨hmem, hg.1, hg.2⟩

/-- C5 counterexample: the code's visibility test is wider than the spec's
rectangle on the low side.  With default tile sizes the padding is 200, and
screen x = -250 lies outside the spec's `[-padding, width+padding]` rectangle
yet `_is_potentially_visible` accepts it: the code tests
`screen_x + tile_width + padding >= 0`, i.e. the rectangle starts at
`-(padding + tile_width)`, not at `-padding`. -/
theorem C5_visibility_counterexample :
    is_potentially_visible (mk_renderer) (-250) 0 (padding_of (mk_renderer)) = true
      ∧ spec_visible_rect (mk_renderer) (-250) 0 = false := by
  exact ⟨by decide, by decide⟩

/-- C5 amended: the culling test holds exactly on the rectangle
`[-(padding+tileWidth), viewportWidth+padding] x
[-(padding+tileHeight), viewportHeight+padding]` with
`padding = 2*max(tileWidth, tileHeight)`; a cell whose projected position
fails the test contributes nothing (`process_cell` leaves the state
untouched), and on a coherent state every registry entry surviving `render`
passes the visibility test. -/
theorem C5_visibility_amended (s : RState) (sx sy : Int) :
    (is_potentially_visible s sx sy (padding_of s) = true
        ↔ (-(padding_of s + (s.tile_width : Int)) ≤ sx
            ∧ sx ≤ (s.viewport_width : Int) + padding_of s
            ∧ -(padding_of s + (s.tile_height : Int)) ≤ sy
            ∧ sy ≤ (s.viewport_height : Int) + padding_of s))
      ∧ (∀ (L : String) (grid : List (List Char)) (x y : Nat),
          is_potentially_visible s (screen_x_of s.x_offset s.tile_width x y)
              (screen_y_of s.y_offset s.tile_height x y) (padding_of s) = false →
            process_cell s L grid x y = s)
      ∧ (Inv s → ∀ (m : MDMap) (hd : MDMapHeader),
          s.map_data = some m → m.header = some hd →
            ∀ e ∈ (render s).current_positions,
              is_potentially_visible (render s) e.2.2.1 e.2.2.2 (padding_of (render s))
                = true) := by
  refine ⟨?_, ?_, ?_⟩
  · unfold is_potentially_visible
    simp only [Bool.and_eq_true, decide_eq_true_eq]
    constructor
    · rintro ⟨⟨⟨h1, h2⟩, h3⟩, h4⟩
      refine ⟨by omega, by omega, by omega, by omega⟩
    · rintro ⟨h1, h2, h3, h4⟩
      refine ⟨⟨⟨by omega, by omega⟩, by omega⟩, by omega⟩
  · intro L grid x y hvisf
    unfold process_cell
    by_cases hc : (alook s.tile_cache ((grid.getD y []).getD x '.')).isSome = true
    · rw [if_pos hc, if_neg (by rw [hvisf]; simp)]
    · rw [if_neg hc]
  · intro hinv m hd hmd hhd e he
    have hi2 := render_inv hinv
    have hf := render_flags hmd hhd
    exact ((hi2.2.1.2 e he).2 hf.1 (by rw [hf.2]; exact List.not_mem_nil _)).2.2

theorem C5_visibility_witness :
    process_cell sW "t" (List.replicate 51 ['G']) 0 50 = sW
      ∧ is_potentially_visible (render sW) 0 0 (padding_of (render sW)) = true := by
  refine ⟨(C5_visibility_amended sW 0 0).2.1 "t" (List.replicate 51 ['G']) 0 50 (by decide),
    ?_⟩
  exact (C5_visibility_amended sW 0 0).2.2 (by decide) mW ⟨"L", 2, 2, ["t"]⟩
    (by decide) (by decide) (("t", 0, 0), ('G', (0 : Int), (0 : Int))) (by decide)

/-- C6: the spec requires `load_map` to succeed only when every declared
layer's grid has exactly the declared number of rows; the code diverges: the
`if layer.grid:` guard in `parse_mdmap`'s validation loop skips any declared
layer whose grid section is missing (grid stayed empty), so `rawBad1` —
header `10x10` with layer `terrain` declared but no `[layer: terrain]`
section, leaving a 0-row grid — loads with `True`.  The row-count mismatch
that the guard does reach (`rawBad2`, 9 rows under a declared `10x10`)
behaves as specified: `load_map` returns `False` and the prior renderer
state is preserved unchanged. -/
theorem C6_malformed_load :
    (load_map sW rawBad1).2.1 = true
      ∧ ((load_map sW rawBad1).1.map_data.map
            (fun mm => mm.header.map (fun hd => hd.height))) = some (some 10)
      ∧ ((load_map sW rawBad1).1.map_data.map
            (fun mm => (get_layer mm "terrain").map (fun ld => ld.grid.length)))
          = some (some 0)
      ∧ (load_map sW rawBad2).2.1 = false
      ∧ (load_map sW rawBad2).1 = sW := by
  exact ⟨by decide, by decide, by decide, rfl, rfl⟩

/-- C8: grass geometry for a fixed tile instance and state is a pure function
of the construction-time fields (`compute_vertex_data` ignores the memo
cache), so any call pattern — first computation from a cleared cache, a
repeat call on the same instance (cache hit), recomputation after the cache
is cleared again, or computation after a different state was computed
first — returns the identical vertex and color lists. -/
theorem C8_geometry_deterministic (g : GrassGeom) (state s2 : Nat) :
    (create_vertex_data (clear_cache g) state).1 = compute_vertex_data g state
      ∧ (create_vertex_data (create_vertex_data (clear_cache g) state).2 state).1
          = compute_vertex_data g state
      ∧ (create_vertex_data (clear_cache (create_vertex_data (clear_cache g) state).2)
            state).1
          = compute_vertex_data g state
      ∧ (create_vertex_data (create_vertex_data (clear_cache g) s2).2 state).1
          = compute_vertex_data g state := by
  have hcva : ∀ (g1 : GrassGeom) (st : Nat) (vd : VertexData),
      alook g1.vertex_data_cache st = some vd → (create_vertex_data g1 st).1 = vd := by
    intro g1 st vd hl
    unfold create_vertex_data
    rw [hl]
  have hcvn : ∀ (g1 : GrassGeom) (st : Nat),
      alook g1.vertex_data_cache st = none →
        (create_vertex_data g1 st).1 = compute_vertex_data g1 st := by
    intro g1 st hl
    unfold create_vertex_data
    rw [hl]
  refine ⟨?_, ?_, ?_, ?_⟩
  · exact hcvn (clear_cache g) state rfl
  · exact hcva (create_vertex_data (clear_cache g) state).2 state
      (compute_vertex_data (clear_cache g) state)
      (alook_aset_self ([] : List (Nat × VertexData)) state
        (compute_vertex_data (clear_cache g) state))
  · exact hcvn (clear_cache (create_vertex_data (clear_cache g) state).2) state rfl
  · by_cases hss : state = s2
    · subst hss
      exact hcva (create_vertex_data (clear_cache g) state).2 state
        (compute_vertex_data (clear_cache g) state)
        (alook_aset_self ([] : List (Nat × VertexData)) state
          (compute_vertex_data (clear_cache g) state))
    · exact hcvn (create_vertex_data (clear_cache g) s2).2 state
        (alook_aset_ne hss ([] : List (Nat × VertexData))
          (compute_vertex_data (clear_cache g) s2))

/-- C9: `cleanup` empties the tile cache, the registry and the dirty set and
is idempotent; on any state whose handle bookkeeping is coherent (the
live-handle ledger matches the tiles' tables), deleting every tile's vertex
lists releases every handle, leaving zero live handles. -/
theorem C9_cleanup (s : RState) :
    cleanup (cleanup s) = cleanup s
      ∧ (cleanup s).tile_cache = []
      ∧ (cleanup s).current_positions = []
      ∧ (cleanup s).dirty_tiles = []
      ∧ (HandlesOK s.tile_cache s.next_handle s.live_handles →
          (cleanup s).live_handles = []) := by
  refine ⟨rfl, rfl, rfl, rfl, ?_⟩
  intro hok
  exact delete_all_live s.tile_cache s.live_handles hok.2.2.2.1

theorem C9_cleanup_witness :
    (cleanup (render sW)).live_handles = [] :=
  (C9_cleanup (render sW)).2.2.2.2 (show Inv (render sW) by decide).1

/-- C10: once animation is disabled via `enable_animation false`, any
sequence of `update_animation` calls — whatever the elapsed times — leaves
the renderer state (in particular the time accumulator) completely
unchanged, so no backlog can build up while disabled. -/
theorem C10_animation_disabled (s : RState) (dts : List ℚ) :
    dts.foldl update_animation (enable_animation s false) = enable_animation s false := by
  refine foldl_inv (fun (q : RState) => q = enable_animation s false)
    update_animation dts ?_ rfl
  intro q dt _ hq
  subst hq
  show update_animation (enable_animation s false) dt = enable_animation s false
  unfold update_animation
  rw [if_pos (show (enable_animation s false).animation_enabled = false from rfl)]

/-- C7: on any map that parses, `load_map` returns `True` regardless of
unknown tile codes; the surfaced warnings are exactly the map's codes whose
factory call fails, the tile cache holds exactly the recognized codes (the
unknown ones are omitted), every registry entry after the next `render`
references a recognized (cached) tile type — cells of unknown type produce
no geometry and no registry entry — and every visible cell of a recognized
type still gets its registry entry. -/
theorem C7_unknown_tile {s0 : RState} {raw : RawMap} {m : MDMap}
    (hinv : Inv s0) (hparse : parse_mdmap raw = Except.ok m) :
    (load_map s0 raw).2.1 = true
      ∧ (load_map s0 raw).2.2
          = (unique_tiles m).filter (fun c => !tile_known c)
      ∧ (∀ c, c ∈ akeys (load_map s0 raw).1.tile_cache
            ↔ c ∈ unique_tiles m ∧ tile_known c = true)
      ∧ (∀ e ∈ (render (load_map s0 raw).1).current_positions,
          tile_known e.2.1 = true)
      ∧ (∀ (hd : MDMapHeader) (ld : LayerData) (L : String) (x y : Nat),
          m.header = some hd → get_layer m L = some ld → L ∈ hd.layers →
            x < hd.width → y < hd.height →
            tile_known ((ld.grid.getD y []).getD x '.') = true →
            is_potentially_visible (load_map s0 raw).1
                (screen_x_of (load_map s0 raw).1.x_offset (load_map s0 raw).1.tile_width x y)
                (screen_y_of (load_map s0 raw).1.y_offset (load_map s0 raw).1.tile_height x y)
                (padding_of (load_map s0 raw).1) = true →
            (L, x, y) ∈ akeys (render (load_map s0 raw).1).current_positions) := by
  obtain ⟨hflag, hmd, hnr, hcur, hlive, hkeys, hwarn, hfresh, hnodup⟩ :=
    @load_map_facts s0 raw m hparse
  have hkeys2 : ∀ c, c ∈ akeys (load_map s0 raw).1.tile_cache
      ↔ c ∈ unique_tiles m ∧ tile_known c = true := by
    intro c
    rw [hkeys c, tile_known_iff]
  refine ⟨hflag, hwarn, hkeys2, ?_, ?_⟩
  · intro e he
    have hi2 := render_inv (load_map_inv hinv raw)
    have hty := (hi2.2.1.2 e he).1.2.2
    rw [(render_stable (load_map s0 raw).1).2] at hty
    exact ((hkeys2 e.2.1).1 hty).2
  · intro hd ld L x y hhd hl hLmem hx hy hknown hvis
    have hne : (ld.grid.getD y []).getD x '.' ≠ '.' := by
      intro hdot
      rw [hdot] at hknown
      cases hknown
    have hcode : ((ld.grid.getD y []).getD x '.') ∈ akeys (load_map s0 raw).1.tile_cache :=
      (hkeys2 _).2 ⟨code_mem_unique hl x y hne, hknown⟩
    exact render_reach L x y hmd hhd hl hnr hLmem hx hy hcode hvis

theorem C7_unknown_tile_witness :
    (load_map (mk_renderer) rawZ).2.1 = true
      ∧ 'Z' ∈ (load_map (mk_renderer) rawZ).2.2
      ∧ 'Z' ∉ akeys (load_map (mk_renderer) rawZ).1.tile_cache
      ∧ ("t", 1, 1) ∈ akeys (render (load_map (mk_renderer) rawZ).1).current_positions := by
  have hparse : parse_mdmap rawZ = Except.ok mZ := rfl
  have h := @C7_unknown_tile (mk_renderer) rawZ mZ (mk_renderer_inv 100 50) hparse
  refine ⟨h.1, ?_, ?_, ?_⟩
  · rw [h.2.1]
    decide
  · intro hm
    exact absurd (((h.2.2.1 'Z').1 hm).2) (by decide)
  · exact h.2.2.2.2 ⟨"L", 2, 2, ["t"]⟩ ⟨[['G', 'Z'], ['.', 'G']], []⟩ "t" 1 1
      (by decide) (by decide) (by decide) (by decide) (by decide) (by decide) (by decide)

end Isoline
